import Mathlib

/-!
Shallow embedding of the hierarchy projection and visibility engine of the
`bsv` issue viewer (`src/tree.rs`), together with theorems checking the
specification's claims about it.

Modelling conventions:
* Rust `HashMap<String, TreeNode>` is modelled as an association list
  `List (String × TreeNode)`; `insert` replaces an existing binding in place
  and otherwise appends, so key iteration order is the (deterministic)
  insertion order, a refinement of the unspecified `HashMap` order.
* Rust `HashSet<String>` is modelled as a `List String` used only through
  membership (`contains`), insertion (cons) and removal (filter).
* The recursive visibility walks take an explicit fuel argument and return
  `none` when fuel runs out; the Rust recursion has no such bound, so fuel
  sufficiency theorems express termination of the original recursion.
* `i32` is modelled as `Int` (comparisons only, no arithmetic), and Rust's
  byte-lexicographic `String::cmp` as code-point-lexicographic comparison,
  which coincides with it on UTF-8 data.
-/

namespace Bsv

/-- Lexicographic comparison of char lists: model of the order underlying
Rust `String::cmp`. -/
def charListLt : List Char → List Char → Bool
  | [], [] => false
  | [], _ :: _ => true
  | _ :: _, [] => false
  | a :: as, b :: bs => if a < b then true else if b < a then false else charListLt as bs

/-- Model of Rust `i32::cmp`. -/
def intCmp (a b : Int) : Ordering :=
  if a < b then .lt else if a = b then .eq else .gt

/-- Model of Rust `String::cmp`. -/
def strCmp (a b : String) : Ordering :=
  if charListLt a.data b.data then .lt
  else if a = b then .eq
  else .gt

/-- Keep the element when the comparator did not say `Greater`; this is the
"may come first" relation induced by a Rust `sort_by` comparator. -/
def notGt (o : Ordering) : Bool :=
  match o with
  | .gt => false
  | _ => true

/-- Hierarchy mode, from `main.rs`. -/
inductive HierarchyMode
  | IdBased
  | DependencyBased
deriving DecidableEq, Repr

/-- Dependency record, from `bd.rs`. -/
structure Dependency where
  id : String
  title : String
  dependency_type : Option String
deriving DecidableEq, Repr

/-- Issue record, from `bd.rs`; only the fields read by `tree.rs` are
modelled (the remaining fields are never consulted by the tree code). -/
structure Issue where
  id : String
  title : String
  status : String
  priority : Int
  dependencies : Option (List Dependency)
deriving DecidableEq, Repr

/-- Tree node, from `tree.rs`. -/
structure TreeNode where
  issue : Issue
  children : List String
  dep_children : List String
  depth : Nat
deriving DecidableEq, Repr

/-- The issue tree state, from `tree.rs`.  `nodes` models the
`HashMap<String, TreeNode>`; the `HashSet` fields are lists used through
membership only. -/
structure IssueTree where
  nodes : List (String × TreeNode)
  root_ids : List String
  dep_root_ids : List String
  expanded : List String
  dep_expanded : List String
  multi_parent_ids : List String
  ready_ids : List String
  visible_items : List String
  cursor : Nat
  show_closed : Bool
  hierarchy_mode : HierarchyMode
deriving DecidableEq, Repr

/-- Association-list model of `HashMap::get`. -/
def lookupNode (m : List (String × TreeNode)) (k : String) : Option TreeNode :=
  (m.find? (fun p => p.1 == k)).map (fun p => p.2)

/-- Association-list model of `HashMap::contains_key`. -/
def containsKey (m : List (String × TreeNode)) (k : String) : Bool :=
  m.any (fun p => p.1 == k)

/-- The key list of the node map (models `HashMap::keys`; iteration order is
insertion order, one deterministic refinement of the unspecified order). -/
def keysOf (m : List (String × TreeNode)) : List String :=
  m.map (fun p => p.1)

/-- Association-list model of `HashMap::insert` (replace or append). -/
def insertNode (m : List (String × TreeNode)) (k : String) (v : TreeNode) :
    List (String × TreeNode) :=
  if m.any (fun p => p.1 == k) then
    m.map (fun p => if p.1 == k then (k, v) else p)
  else m ++ [(k, v)]

/-- Model of `node.depth = depth` through `HashMap::get_mut`: update the
depth of the node bound to `id`, if any. -/
def set_depth (m : List (String × TreeNode)) (id : String) (d : Nat) :
    List (String × TreeNode) :=
  m.map (fun p => if p.1 == id then (p.1, { p.2 with depth := d }) else p)

/-- Index of the last `'.'` in a character list (model of `str::rfind`). -/
def lastDotIdx : List Char → Option Nat
  | [] => none
  | c :: cs =>
    match lastDotIdx cs with
    | some i => some (i + 1)
    | none => if c = '.' then some 0 else none

/-- Model of `IssueTree::parent_from_dotted_id`:
`"bsv-abc.1.2" -> some "bsv-abc.1"`, `"bsv-abc" -> none`. -/
def parent_from_dotted_id (id : String) : Option String :=
  (lastDotIdx id.data).map (fun i => String.mk (id.data.take i))

/-- The non-`"related"` dependencies of an issue (the `blocking_deps`
filter in the third pass of `from_issues`). -/
def blocking_deps (i : Issue) : List Dependency :=
  (i.dependencies.getD []).filter (fun d => !(d.dependency_type == some "related"))

/-- First-occurrence deduplication (the `seen.insert` filter used when
populating `dep_children`). -/
def dedupFirst (seen : List String) : List String → List String
  | [] => []
  | x :: xs =>
    if seen.contains x then dedupFirst seen xs
    else x :: dedupFirst (x :: seen) xs

/-- The comparator of `from_issues`' `sort_fn` and of the child sort in the
walks: priority then title, `Ordering::Equal` when a node is missing. -/
def cmp_nodes_opt (a b : Option TreeNode) : Ordering :=
  match a, b with
  | some na, some nb =>
    (intCmp na.issue.priority nb.issue.priority).then
      (strCmp na.issue.title nb.issue.title)
  | _, _ => .eq

/-- The "may come first" Boolean relation of the comparator. -/
def node_le (m : List (String × TreeNode)) (a b : String) : Bool :=
  notGt (cmp_nodes_opt (lookupNode m a) (lookupNode m b))

/-- Stable insertion step. -/
def insertSorted (le : String → String → Bool) (x : String) :
    List String → List String
  | [] => [x]
  | y :: ys => if le x y then x :: y :: ys else y :: insertSorted le x ys

/-- Stable sort; models Rust's (stable) `sort_by`: for a total preorder the
stable sorted permutation is unique, so any stable sort is faithful. -/
def insertionSort (le : String → String → Bool) : List String → List String
  | [] => []
  | x :: xs => insertSorted le x (insertionSort le xs)

/-- Sort a list of ids by priority then title (used for root lists and,
at traversal time, for every children list). -/
def sort_ids (m : List (String × TreeNode)) (l : List String) : List String :=
  insertionSort (node_le m) l

/-- The per-key content of the Rust `children_map`: ids of issues (in input
order) whose dotted-id parent is `parent_id`.  `from_issues` only reads the
map at keys present in `nodes`, where its contains-key guard holds. -/
def id_children_of (issues : List Issue) (parent_id : String) : List String :=
  (issues.filter (fun i => parent_from_dotted_id i.id == some parent_id)).map
    (fun i => i.id)

/-- The per-key content of the Rust `dep_children_map` after deduplication:
for each issue (in input order), one entry per blocking dependency on
`parent_id`, then first-occurrence dedup. -/
def dep_children_of (issues : List Issue) (parent_id : String) : List String :=
  dedupFirst []
    (issues.flatMap (fun i =>
      (blocking_deps i).filterMap (fun d =>
        if d.id == parent_id then some i.id else none)))

/-- The filter choosing ID-based roots: no dot, or the truncated parent is
absent from the snapshot. -/
def is_id_root (m : List (String × TreeNode)) (id : String) : Bool :=
  match parent_from_dotted_id id with
  | some parent_id => !containsKey m parent_id
  | none => true

/-- Whether a node has a blocking dependency on an existing issue (the
dep-root filter). -/
def has_blocking_deps (m : List (String × TreeNode)) (node : TreeNode) : Bool :=
  (node.issue.dependencies.getD []).any (fun d =>
    !(d.dependency_type == some "related") && containsKey m d.id)

/-- First pass of `from_issues`: create all nodes. -/
def initialNodes (issues : List Issue) : List (String × TreeNode) :=
  issues.foldl
    (fun m i =>
      insertNode m i.id { issue := i, children := [], dep_children := [], depth := 0 })
    []

/-- Second and third passes of `from_issues`: populate the `children` and
`dep_children` lists of every node. -/
def populatedNodes (issues : List Issue) : List (String × TreeNode) :=
  (initialNodes issues).map (fun p =>
    (p.1, { p.2 with
            children := id_children_of issues p.1,
            dep_children := dep_children_of issues p.1 }))

/-- The mutable state threaded through a visibility walk: the node map
(depths are written back into it) and the output list; `added` is the
global-deduplication set, used by the dependency-mode walk only. -/
structure WalkSt where
  nodes : List (String × TreeNode)
  visible_items : List String
  added : List String
deriving DecidableEq, Repr

/-- The `is_closed` test at the top of both recursive walks. -/
def is_closed_in (m : List (String × TreeNode)) (id : String) : Bool :=
  match lookupNode m id with
  | some node => node.issue.status == "closed"
  | none => false

/-- Model of `IssueTree::add_visible_recursive_id`.  The fuel argument makes
the recursion structural; `none` means fuel ran out (the Rust function has
no such bound, so fuel-sufficiency theorems below express termination).
The `for` loop over the children threads the state left to right,
short-circuiting on fuel exhaustion. -/
def add_visible_recursive_id (show_closed : Bool) (expanded : List String)
    (fuel : Nat) (id : String) (depth : Nat) (st : WalkSt) : Option WalkSt :=
  match fuel with
  | 0 => none
  | fuel' + 1 =>
    let is_closed := is_closed_in st.nodes id
    let st1 :=
      if show_closed || !is_closed then
        { st with visible_items := st.visible_items ++ [id],
                  nodes := set_depth st.nodes id depth }
      else st
    let should_traverse := expanded.contains id || (!show_closed && is_closed)
    if should_traverse then
      match lookupNode st1.nodes id with
      | some node =>
        let children := sort_ids st1.nodes node.children
        let child_depth := if !show_closed && is_closed then depth else depth + 1
        children.foldl
          (fun acc c => acc.bind
            (fun st2 => add_visible_recursive_id show_closed expanded fuel' c
              child_depth st2))
          (some st1)
      | none => some st1
    else some st1

/-- The loop over a (root or children) list in ID mode, threading the state
left to right. -/
def walk_id_list (show_closed : Bool) (expanded : List String)
    (fuel : Nat) (ids : List String) (depth : Nat) (st : WalkSt) : Option WalkSt :=
  ids.foldl
    (fun acc c => acc.bind
      (fun st2 => add_visible_recursive_id show_closed expanded fuel c depth st2))
    (some st)

/-- Model of `IssueTree::add_visible_recursive_dep`.  `visited` is the
in-progress path set; it is passed by value because the Rust code removes
`id` from it when backtracking, restoring the caller's set. -/
def add_visible_recursive_dep (show_closed : Bool) (dep_expanded : List String)
    (fuel : Nat) (id : String) (depth : Nat) (visited : List String)
    (st : WalkSt) : Option WalkSt :=
  match fuel with
  | 0 => none
  | fuel' + 1 =>
    let is_closed := is_closed_in st.nodes id
    if visited.contains id then some st
    else
      let is_hidden := !show_closed && is_closed
      if (show_closed || !is_closed) && st.added.contains id then some st
      else
        let st1 :=
          if show_closed || !is_closed then
            { st with visible_items := st.visible_items ++ [id],
                      added := id :: st.added,
                      nodes := set_depth st.nodes id depth }
          else st
        let should_traverse := dep_expanded.contains id || is_hidden
        if should_traverse then
          match lookupNode st1.nodes id with
          | some node =>
            let children := sort_ids st1.nodes node.dep_children
            let child_depth := if is_hidden then depth else depth + 1
            children.foldl
              (fun acc c => acc.bind
                (fun st2 => add_visible_recursive_dep show_closed dep_expanded
                  fuel' c child_depth (id :: visited) st2))
              (some st1)
          | none => some st1
        else some st1

/-- The loop over a (root or children) list in dependency mode. -/
def walk_dep_list (show_closed : Bool) (dep_expanded : List String)
    (fuel : Nat) (ids : List String) (depth : Nat) (visited : List String)
    (st : WalkSt) : Option WalkSt :=
  ids.foldl
    (fun acc c => acc.bind
      (fun st2 => add_visible_recursive_dep show_closed dep_expanded fuel c depth
        visited st2))
    (some st)

/-- Model of `IssueTree::rebuild_visible`: clear the list, walk the active
root list, then clamp the cursor.  Fuel `nodes.length + 1` is enough in both
modes (proved below). -/
def rebuild_visible (t : IssueTree) : Option IssueTree :=
  let fuel := t.nodes.length + 1
  let st0 : WalkSt := { nodes := t.nodes, visible_items := [], added := [] }
  let r :=
    match t.hierarchy_mode with
    | .IdBased => walk_id_list t.show_closed t.expanded fuel t.root_ids 0 st0
    | .DependencyBased =>
      walk_dep_list t.show_closed t.dep_expanded fuel t.dep_root_ids 0 [] st0
  match r with
  | none => none
  | some st =>
    let cursor' :=
      if st.visible_items.length ≤ t.cursor && !st.visible_items.isEmpty then
        st.visible_items.length - 1
      else t.cursor
    some { t with nodes := st.nodes, visible_items := st.visible_items,
                  cursor := cursor' }

/-- The tree `from_issues` assembles just before its final
`rebuild_visible` call: projections built, empty visible list, cursor `0`,
`show_closed` hard-wired to `true`. -/
def initial_tree (issues : List Issue) (expanded dep_expanded ready_ids : List String)
    (hierarchy_mode : HierarchyMode) : IssueTree :=
  let nodes := populatedNodes issues
  { nodes := nodes,
    root_ids := sort_ids nodes ((keysOf nodes).filter (fun id => is_id_root nodes id)),
    dep_root_ids := sort_ids nodes ((keysOf nodes).filter (fun id =>
      match lookupNode nodes id with
      | some node => !has_blocking_deps nodes node
      | none => true)),
    expanded := expanded, dep_expanded := dep_expanded,
    multi_parent_ids :=
      (issues.filter (fun i => 1 < (blocking_deps i).length)).map (fun i => i.id),
    ready_ids := ready_ids,
    visible_items := [], cursor := 0, show_closed := true,
    hierarchy_mode := hierarchy_mode }

/-- Model of `IssueTree::from_issues`. -/
def from_issues (issues : List Issue) (expanded dep_expanded ready_ids : List String)
    (hierarchy_mode : HierarchyMode) : Option IssueTree :=
  rebuild_visible (initial_tree issues expanded dep_expanded ready_ids hierarchy_mode)

/-- Model of `IssueTree::selected_id`. -/
def selected_id (t : IssueTree) : Option String :=
  t.visible_items.get? t.cursor

/-- Model of `IssueTree::current_expanded`. -/
def current_expanded (t : IssueTree) : List String :=
  match t.hierarchy_mode with
  | .IdBased => t.expanded
  | .DependencyBased => t.dep_expanded

/-- Model of `IssueTree::current_children`. -/
def current_children (t : IssueTree) (node : TreeNode) : List String :=
  match t.hierarchy_mode with
  | .IdBased => node.children
  | .DependencyBased => node.dep_children

/-- Model of `IssueTree::has_children_in_current_mode`. -/
def has_children_in_current_mode (t : IssueTree) (id : String) : Bool :=
  match lookupNode t.nodes id with
  | some n => !(current_children t n).isEmpty
  | none => false

/-- Write the active fold-state set back into the tree. -/
def set_current_expanded (t : IssueTree) (s : List String) : IssueTree :=
  match t.hierarchy_mode with
  | .IdBased => { t with expanded := s }
  | .DependencyBased => { t with dep_expanded := s }

/-- Fold-state removal (`HashSet::remove`). -/
def eraseSet (s : List String) (id : String) : List String :=
  s.filter (fun x => !(x == id))

/-- Model of `IssueTree::move_up`. -/
def move_up (t : IssueTree) : IssueTree :=
  if 0 < t.cursor then { t with cursor := t.cursor - 1 } else t

/-- Model of `IssueTree::move_down`. -/
def move_down (t : IssueTree) : IssueTree :=
  if t.cursor + 1 < t.visible_items.length then { t with cursor := t.cursor + 1 } else t

/-- Model of `IssueTree::move_to_top`. -/
def move_to_top (t : IssueTree) : IssueTree :=
  { t with cursor := 0 }

/-- Model of `IssueTree::move_to_bottom`. -/
def move_to_bottom (t : IssueTree) : IssueTree :=
  if !t.visible_items.isEmpty then
    { t with cursor := t.visible_items.length - 1 }
  else t

/-- Model of `IssueTree::toggle_expand`. -/
def toggle_expand (t : IssueTree) : Option IssueTree :=
  match selected_id t with
  | none => some t
  | some id =>
    if has_children_in_current_mode t id then
      let s := current_expanded t
      if s.contains id then rebuild_visible (set_current_expanded t (eraseSet s id))
      else rebuild_visible (set_current_expanded t (id :: s))
    else some t

/-- Model of `IssueTree::expand`. -/
def expand (t : IssueTree) : Option IssueTree :=
  match selected_id t with
  | none => some t
  | some id =>
    if has_children_in_current_mode t id then
      let s := current_expanded t
      if !s.contains id then rebuild_visible (set_current_expanded t (id :: s))
      else some t
    else some t

/-- The structural-parent computation in `collapse`'s fallback branch:
dotted-id parent in ID mode, first non-`"related"` dependency target in
dependency mode (note: the code does not check that this target exists). -/
def collapse_parent (t : IssueTree) (id : String) : Option String :=
  match t.hierarchy_mode with
  | .IdBased => parent_from_dotted_id id
  | .DependencyBased =>
    (lookupNode t.nodes id).bind (fun node =>
      (node.issue.dependencies.getD []).find?
        (fun d => !(d.dependency_type == some "related")) |>.map (fun d => d.id))

/-- Model of `IssueTree::collapse`. -/
def collapse (t : IssueTree) : Option IssueTree :=
  match selected_id t with
  | none => some t
  | some id =>
    let s := current_expanded t
    if s.contains id then rebuild_visible (set_current_expanded t (eraseSet s id))
    else
      some (match collapse_parent t id with
        | some parent_id =>
          match t.visible_items.findIdx? (fun x => x == parent_id) with
          | some pos => { t with cursor := pos }
          | none => t
        | none => t)

/-- Model of `IssueTree::toggle_expand_all`. -/
def toggle_expand_all (t : IssueTree) : Option IssueTree :=
  let s := current_expanded t
  if s.isEmpty then
    let s' := (t.nodes.filter (fun p => !(current_children t p.2).isEmpty)).map
      (fun p => p.1)
    rebuild_visible (set_current_expanded t s')
  else rebuild_visible (set_current_expanded t [])

/-- Model of `IssueTree::toggle_show_closed`. -/
def toggle_show_closed (t : IssueTree) : Option IssueTree :=
  rebuild_visible { t with show_closed := !t.show_closed }

/-- Model of `IssueTree::set_hierarchy_mode`. -/
def set_hierarchy_mode (t : IssueTree) (mode : HierarchyMode) : Option IssueTree :=
  rebuild_visible { t with hierarchy_mode := mode }

/-- A node with its (display-only) depth field reset; two node maps equal
after stripping agree on everything the walks read. -/
def stripNode (n : TreeNode) : TreeNode :=
  { n with depth := 0 }

/-- Reset every depth in a node map. -/
def strip_depths (m : List (String × TreeNode)) : List (String × TreeNode) :=
  m.map (fun p => (p.1, stripNode p.2))

/-- What a walk step may do to the state: set depths (leaving the stripped
node map unchanged), append to the visible list, and push onto `added`. -/
def WalkShape (st st' : WalkSt) : Prop :=
  strip_depths st'.nodes = strip_depths st.nodes ∧
  (∃ as, st'.added = as ++ st.added) ∧
  (∃ vs, st'.visible_items = st.visible_items ++ vs)

/-- Number of keys not yet on the recursion path: termination measure of the
dependency-mode walk. -/
def unvisitedCount (m : List (String × TreeNode)) (visited : List String) : Nat :=
  ((keysOf m).filter (fun k => !visited.contains k)).length

/-- Structural well-formedness of the node map needed by the ID-mode walk:
every listed child truncates back to its parent and is present in the map.
`from_issues` establishes it for every input. -/
def IdWF (m : List (String × TreeNode)) : Prop :=
  ∀ p ∈ m, ∀ c ∈ p.2.children, parent_from_dotted_id c = some p.1 ∧
    containsKey m c = true

/-- Children lists are duplicate-free; `from_issues` establishes it when the
input issue ids are unique. -/
def ChildNodupWF (m : List (String × TreeNode)) : Prop :=
  ∀ p ∈ m, p.2.children.Nodup

/-- Number of keys with a strictly longer id: termination measure of the
ID-mode walk (each child id is strictly longer than its parent id). -/
def longerCount (m : List (String × TreeNode)) (id : String) : Nat :=
  ((keysOf m).filter (fun k => id.length < k.length)).length

/-- State relation for the congruence lemma: equal up to node depths. -/
def StRel (st₁ st₂ : WalkSt) : Prop :=
  strip_depths st₁.nodes = strip_depths st₂.nodes ∧
  st₁.visible_items = st₂.visible_items ∧
  st₁.added = st₂.added

/-- Lift of `StRel` to walk results. -/
def OptStRel (o₁ o₂ : Option WalkSt) : Prop :=
  match o₁, o₂ with
  | none, none => True
  | some a, some b => StRel a b
  | _, _ => False

/-- The root-list walk that `rebuild_visible` runs in the active mode. -/
def rebuild_walk (t : IssueTree) : Option WalkSt :=
  match t.hierarchy_mode with
  | .IdBased =>
    walk_id_list t.show_closed t.expanded (t.nodes.length + 1) t.root_ids 0
      { nodes := t.nodes, visible_items := [], added := [] }
  | .DependencyBased =>
    walk_dep_list t.show_closed t.dep_expanded (t.nodes.length + 1) t.dep_root_ids 0 []
      { nodes := t.nodes, visible_items := [], added := [] }

/-- Invariant of the dependency walk giving global uniqueness: the visible
list is duplicate-free and everything in it is in the `added` set. -/
def DepInv (st : WalkSt) : Prop :=
  st.visible_items.Nodup ∧ ∀ x ∈ st.visible_items, st.added.contains x = true

/-- The (unique) dotted-id parent of `x` when it is a present key. -/
def parentKeyOf (ks : List String) (x : String) : Option String :=
  match parent_from_dotted_id x with
  | some p => if ks.contains p then some p else none
  | none => none

/-- Ancestor-or-self relation along present dotted-id parents:
`ReachK ks x y` means walking up parents from `x` (through present keys)
passes through `y`. -/
inductive ReachK (ks : List String) : String → String → Prop where
  | refl (x : String) : ReachK ks x x
  | step {x p y : String} : parentKeyOf ks x = some p → ReachK ks p y → ReachK ks x y

/-- Pairwise separation of the reachability cones of a list of start ids. -/
def ConesDisjoint (ks : List String) (ids : List String) : Prop :=
  ∀ c₁ ∈ ids, ∀ c₂ ∈ ids, c₁ ≠ c₂ →
    ∀ x, ReachK ks x c₁ → ReachK ks x c₂ → False

/-- Tree-level well-formedness established by `from_issues` and preserved by
every rebuild: the node-map facts plus root-list facts of the ID mode. -/
def TreeWF (t : IssueTree) : Prop :=
  IdWF t.nodes ∧ ChildNodupWF t.nodes ∧ t.root_ids.Nodup ∧
  ∀ r ∈ t.root_ids, parentKeyOf (keysOf t.nodes) r = none

/-- The cursor bound that actually holds: in-range whenever the visible list
is non-empty. -/
def CursorInv (t : IssueTree) : Prop :=
  t.visible_items ≠ [] → t.cursor < t.visible_items.length

/-- A tree whose stored visible list is what its own recomputation produces
(true of every state the application reaches, since each mutation that
affects the walk re-runs it). -/
def InSync (t : IssueTree) : Prop :=
  (rebuild_visible t).map (fun r => r.visible_items) = some t.visible_items

/-- Concrete issue constructors for the witness scenarios. -/
def mk_issue (id title : String) (priority : Int) (status : String) : Issue :=
  { id := id, title := title, status := status, priority := priority,
    dependencies := none }

/-- A blocking dependency on `target`. -/
def blk (target : String) : Dependency :=
  { id := target, title := "d", dependency_type := some "blocks" }

/-- An issue with dependencies. -/
def mk_issue_deps (id title : String) (status : String) (deps : List Dependency) : Issue :=
  { id := id, title := title, status := status, priority := 2,
    dependencies := some deps }

/-- Concrete walk state for the C1 analysis: node `m` (expanded, open,
already emitted and in the global-once set) with dependency child `c` not
yet emitted. -/
def c1_node_m : TreeNode :=
  { issue := mk_issue "m" "M" 2 "open", children := [], dep_children := ["c"],
    depth := 0 }

def c1_node_c : TreeNode :=
  { issue := mk_issue "c" "C" 2 "open", children := [], dep_children := [],
    depth := 0 }

def c1_state : WalkSt :=
  { nodes := [("m", c1_node_m), ("c", c1_node_c)], visible_items := ["m"],
    added := ["m"] }

/-- The spec's notion of a surviving blocking dependency: not `"related"`
and pointing at an issue present in the snapshot.  Stated from the spec's
words for comparison with what the code computes. -/
def surviving_blocking_deps (m : List (String × TreeNode)) (i : Issue) :
    List Dependency :=
  (blocking_deps i).filter (fun d => containsKey m d.id)

def c5_issue_p : Issue := mk_issue "p" "P" 2 "open"

/-- Issue with two non-`"related"` dependencies, one of which points at an
id absent from the snapshot. -/
def c5_issue_z : Issue := mk_issue_deps "z" "Z" "open" [blk "ghost", blk "p"]

/-- Diamond scenario for C2: `b` and `c` both depend on `a`; `d` depends on
both `b` and `c`, so it is reachable twice. -/
def c2_issues : List Issue :=
  [mk_issue "a" "A" 1 "open",
   mk_issue_deps "b" "B" "open" [blk "a"],
   mk_issue_deps "c" "C" "open" [blk "a"],
   mk_issue_deps "d" "D" "open" [blk "b", blk "c"]]

/-- The structural parent as the spec words it for dependency mode: the
first *surviving* blocking dependency (`dependency_type` not `"related"`
**and** target present in the snapshot).  The code's `collapse_parent`
omits the presence check; C6's counterexample separates the two. -/
def collapse_parent_spec (t : IssueTree) (id : String) : Option String :=
  match t.hierarchy_mode with
  | .IdBased => parent_from_dotted_id id
  | .DependencyBased =>
    (lookupNode t.nodes id).bind (fun node =>
      (((node.issue.dependencies.getD []).filter
        (fun d => !(d.dependency_type == some "related") &&
          containsKey t.nodes d.id)).head?).map (fun d => d.id))

/-- Issues for the C6 counterexample: `z` blocks on the absent id `"ghost"`
first and on the present issue `"p"` second. -/
def c6_issue_p : Issue := mk_issue "p" "P" 2 "open"

def c6_issue_z : Issue := mk_issue_deps "z" "Z" "open" [blk "ghost", blk "p"]

/-- Relation driving the C7 proof: two walks that differ in fold state only
at `marker` have either emitted exactly the same list (with the marker and
its emission consequences not yet seen), or lists sharing a common prefix
with `marker` at the same position and arbitrary material below it. -/
def PrefRel (marker : String) (st₁ st₂ : WalkSt) : Prop :=
  strip_depths st₁.nodes = strip_depths st₂.nodes ∧
  ((st₁.visible_items = st₂.visible_items ∧ st₁.added = st₂.added ∧
      marker ∉ st₁.visible_items ∧ marker ∉ st₁.added) ∨
   (∃ p s₁ s₂, st₁.visible_items = p ++ marker :: s₁ ∧
     st₂.visible_items = p ++ marker :: s₂ ∧ marker ∉ p))

/-- `PrefRel` on walk results, conditional on both walks succeeding. -/
def OptPrefRel (marker : String) (o₁ o₂ : Option WalkSt) : Prop :=
  ∀ st₁' st₂', o₁ = some st₁' → o₂ = some st₂' → PrefRel marker st₁' st₂'

theorem charListLt_irrefl : ∀ as, charListLt as as = false := by
  intro as
  induction as with
  | nil => rfl
  | cons a as ih => simp [charListLt, ih]

theorem charListLt_asymm : ∀ as bs, charListLt as bs = true → charListLt bs as = false := by
  intro as
  induction as with
  | nil => intro bs h; cases bs <;> simp_all [charListLt]
  | cons a as ih =>
    intro bs h
    cases bs with
    | nil => simp_all [charListLt]
    | cons b bs =>
      by_cases hab : a < b
      · have hba : ¬ b < a := lt_asymm hab
        simp [charListLt, hab, hba]
      · by_cases hba : b < a
        · simp_all [charListLt]
        · simp only [charListLt, if_neg hab, if_neg hba] at h
          simp [charListLt, hab, hba, ih bs h]

theorem charListLt_connex :
    ∀ as bs, charListLt as bs = false → charListLt bs as = false → as = bs := by
  intro as
  induction as with
  | nil => intro bs h _; cases bs <;> simp_all [charListLt]
  | cons a as ih =>
    intro bs h h'
    cases bs with
    | nil => simp_all [charListLt]
    | cons b bs =>
      by_cases hab : a < b
      · simp_all [charListLt]
      · by_cases hba : b < a
        · simp_all [charListLt]
        · have hab' : a = b := le_antisymm (not_lt.mp hba) (not_lt.mp hab)
          simp only [charListLt, if_neg hab, if_neg hba] at h h'
          simp [hab', ih bs h h']

theorem charListLt_trans :
    ∀ as bs cs, charListLt as bs = true → charListLt bs cs = true →
      charListLt as cs = true := by
  intro as
  induction as with
  | nil =>
    intro bs cs h h'
    cases bs with
    | nil => simp_all [charListLt]
    | cons b bs => cases cs <;> simp_all [charListLt]
  | cons a as ih =>
    intro bs cs h h'
    cases bs with
    | nil => simp_all [charListLt]
    | cons b bs =>
      cases cs with
      | nil => simp_all [charListLt]
      | cons c cs =>
        by_cases hab : a < b <;> by_cases hbc : b < c
        · have hac : a < c := lt_trans hab hbc
          simp [charListLt, hac]
        · by_cases hcb : c < b
          · simp_all [charListLt]
          · have hbc' : b = c := le_antisymm (not_lt.mp hcb) (not_lt.mp hbc)
            subst hbc'
            simp [charListLt, hab]
        · by_cases hba : b < a
          · simp_all [charListLt]
          · have hab' : a = b := le_antisymm (not_lt.mp hba) (not_lt.mp hab)
            subst hab'
            simp [charListLt, hbc]
        · by_cases hba : b < a
          · simp_all [charListLt]
          · by_cases hcb : c < b
            · simp_all [charListLt]
            · have hab' : a = b := le_antisymm (not_lt.mp hba) (not_lt.mp hab)
              have hbc' : b = c := le_antisymm (not_lt.mp hcb) (not_lt.mp hbc)
              subst hab'; subst hbc'
              simp only [charListLt, if_neg hba, if_neg hcb] at h h' ⊢
              exact ih bs cs h h'

theorem strCmp_eq_gt_iff {a b : String} :
    strCmp a b = .gt ↔ charListLt b.data a.data = true := by
  unfold strCmp
  constructor
  · intro h
    by_cases hlt : charListLt a.data b.data = true
    · simp [hlt] at h
    · by_cases heq : a = b
      · simp [hlt, heq] at h
      · by_contra hba
        have := charListLt_connex _ _ (by simpa using hlt) (by simpa using hba)
        exact heq (String.ext this)
  · intro hba
    have hab : charListLt a.data b.data = false := charListLt_asymm _ _ hba
    have hne : a ≠ b := by
      intro he; subst he; simp [charListLt_irrefl] at hba
    simp [hab, hne]

theorem strCmp_gt_asymm {a b : String} (h : strCmp a b = .gt) : strCmp b a = .lt := by
  have hba := strCmp_eq_gt_iff.mp h
  simp [strCmp, hba]

theorem notGt_strCmp_iff {a b : String} :
    notGt (strCmp a b) = true ↔ charListLt b.data a.data = false := by
  constructor
  · intro h
    by_contra hba
    have := strCmp_eq_gt_iff.mpr (by simpa using hba)
    simp [this, notGt] at h
  · intro hba
    have : strCmp a b ≠ .gt := by
      intro h; rw [strCmp_eq_gt_iff] at h; simp [h] at hba
    cases h : strCmp a b <;> simp_all [notGt]

theorem strCmp_notGt_trans {a b c : String} (h : notGt (strCmp a b) = true)
    (h' : notGt (strCmp b c) = true) : notGt (strCmp a c) = true := by
  rw [notGt_strCmp_iff] at h h' ⊢
  by_contra hca
  have hca' : charListLt c.data a.data = true := by simpa using hca
  by_cases hab : charListLt a.data b.data = true
  · have : charListLt c.data b.data = true := charListLt_trans _ _ _ hca' hab
    simp [this] at h'
  · have hab' : a.data = b.data := charListLt_connex _ _ (by simpa using hab) h
    rw [hab'] at hca'
    simp [hca'] at h'

theorem strCmp_self (a : String) : strCmp a a = .eq := by
  simp [strCmp, charListLt_irrefl]

theorem strCmp_total (a b : String) :
    notGt (strCmp a b) = true ∨ notGt (strCmp b a) = true := by
  by_cases h : strCmp a b = .gt
  · right; simp [notGt, strCmp_gt_asymm h]
  · left; unfold notGt; cases hab : strCmp a b <;> simp_all

theorem notGt_true_iff (o : Ordering) : notGt o = true ↔ o ≠ .gt := by
  cases o <;> simp [notGt]

theorem intCmp_eq_gt_iff {a b : Int} : intCmp a b = .gt ↔ b < a := by
  unfold intCmp
  by_cases h1 : a < b <;> by_cases h2 : a = b <;> simp [h1, h2] <;> omega

theorem intCmp_gt_asymm {a b : Int} (h : intCmp a b = .gt) : intCmp b a = .lt := by
  have hba : b < a := intCmp_eq_gt_iff.mp h
  have h1 : ¬ a < b := by omega
  simp [intCmp, hba]

theorem intCmp_self (a : Int) : intCmp a a = .eq := by
  simp [intCmp]

theorem notGt_intCmp_iff {a b : Int} : notGt (intCmp a b) = true ↔ a ≤ b := by
  rw [notGt_true_iff]
  constructor
  · intro h
    by_contra hc
    exact h (intCmp_eq_gt_iff.mpr (by omega))
  · intro h hgt
    have := intCmp_eq_gt_iff.mp hgt
    omega

theorem intCmp_notGt_trans {a b c : Int} (h : notGt (intCmp a b) = true)
    (h' : notGt (intCmp b c) = true) : notGt (intCmp a c) = true := by
  rw [notGt_intCmp_iff] at h h' ⊢
  omega

theorem intCmp_eq_iff {a b : Int} : intCmp a b = .eq ↔ a = b := by
  unfold intCmp
  by_cases h1 : a < b <;> by_cases h2 : a = b <;> simp [h1, h2]

theorem intCmp_lt_iff {a b : Int} : intCmp a b = .lt ↔ a < b := by
  unfold intCmp
  by_cases h1 : a < b <;> by_cases h2 : a = b <;> simp [h1, h2]

/-- Folding the walk step over any list from `none` stays `none`. -/
theorem foldl_bind_none {f : String → WalkSt → Option WalkSt} :
    ∀ ids : List String,
      ids.foldl (fun acc c => acc.bind (fun st2 => f c st2)) none = none := by
  intro ids
  induction ids with
  | nil => rfl
  | cons c cs ih => simpa using ih

theorem walk_id_list_nil (sc : Bool) (e : List String) (fuel : Nat) (d : Nat)
    (st : WalkSt) : walk_id_list sc e fuel [] d st = some st := rfl

theorem walk_id_list_cons (sc : Bool) (e : List String) (fuel : Nat)
    (c : String) (cs : List String) (d : Nat) (st : WalkSt) :
    walk_id_list sc e fuel (c :: cs) d st =
      match add_visible_recursive_id sc e fuel c d st with
      | none => none
      | some st' => walk_id_list sc e fuel cs d st' := by
  unfold walk_id_list
  rw [List.foldl_cons]
  cases hm : add_visible_recursive_id sc e fuel c d st with
  | none =>
    simp only [Option.bind, hm]
    exact foldl_bind_none cs
  | some st' =>
    simp only [Option.bind, hm]

theorem walk_dep_list_nil (sc : Bool) (e : List String) (fuel : Nat) (d : Nat)
    (vis : List String) (st : WalkSt) :
    walk_dep_list sc e fuel [] d vis st = some st := rfl

theorem walk_dep_list_cons (sc : Bool) (e : List String) (fuel : Nat)
    (c : String) (cs : List String) (d : Nat) (vis : List String) (st : WalkSt) :
    walk_dep_list sc e fuel (c :: cs) d vis st =
      match add_visible_recursive_dep sc e fuel c d vis st with
      | none => none
      | some st' => walk_dep_list sc e fuel cs d vis st' := by
  unfold walk_dep_list
  rw [List.foldl_cons]
  cases hm : add_visible_recursive_dep sc e fuel c d vis st with
  | none =>
    simp only [Option.bind, hm]
    exact foldl_bind_none cs
  | some st' =>
    simp only [Option.bind, hm]

theorem lookup_strip (m : List (String × TreeNode)) (k : String) :
    lookupNode (strip_depths m) k = (lookupNode m k).map stripNode := by
  induction m with
  | nil => rfl
  | cons p m ih =>
    by_cases h : p.1 == k
    · simp [lookupNode, strip_depths, List.find?, h]
    · simpa [lookupNode, strip_depths, List.find?, h] using ih

theorem strip_set_depth (m : List (String × TreeNode)) (id : String) (d : Nat) :
    strip_depths (set_depth m id d) = strip_depths m := by
  unfold strip_depths set_depth
  rw [List.map_map]
  apply List.map_congr_left
  intro p _
  by_cases h : p.1 = id
  · simp [h, stripNode]
  · simp [h]

theorem keys_strip (m : List (String × TreeNode)) :
    keysOf (strip_depths m) = keysOf m := by
  unfold keysOf strip_depths
  rw [List.map_map]
  rfl

theorem length_strip (m : List (String × TreeNode)) :
    (strip_depths m).length = m.length := by
  simp [strip_depths]

theorem containsKey_strip (m : List (String × TreeNode)) (k : String) :
    containsKey (strip_depths m) k = containsKey m k := by
  unfold containsKey strip_depths
  rw [List.any_map]
  rfl

theorem containsKey_iff_mem_keys (m : List (String × TreeNode)) (k : String) :
    containsKey m k = true ↔ k ∈ keysOf m := by
  unfold containsKey keysOf
  simp [List.any_eq_true, List.mem_map]

theorem lookup_isSome_iff_containsKey (m : List (String × TreeNode)) (k : String) :
    (lookupNode m k).isSome = containsKey m k := by
  unfold lookupNode containsKey
  cases hf : m.find? (fun p => p.1 == k) with
  | none =>
    have h1 := List.find?_eq_none.mp hf
    have h2 : (m.any fun p => p.1 == k) = false := by
      simp only [List.any_eq_false]
      intro p hp
      simpa using h1 p hp
    simp [h2]
  | some p =>
    have h2 : (m.any fun p => p.1 == k) = true := by
      simp only [List.any_eq_true]
      exact ⟨p, List.mem_of_find?_eq_some hf, (List.find?_eq_some.mp hf).1⟩
    simp [h2]

theorem mem_of_lookup_some {m : List (String × TreeNode)} {k : String} {n : TreeNode}
    (h : lookupNode m k = some n) : (k, n) ∈ m := by
  unfold lookupNode at h
  cases hf : m.find? (fun p => p.1 == k) with
  | none => simp [hf] at h
  | some p =>
    have hm := List.mem_of_find?_eq_some hf
    have hp := List.find?_some hf
    have h1 : p.1 = k := by simpa using hp
    simp [hf] at h
    have : p = (k, n) := by
      cases p; simp_all
    rwa [this] at hm

theorem cmp_nodes_opt_strip (a b : Option TreeNode) :
    cmp_nodes_opt (a.map stripNode) (b.map stripNode) = cmp_nodes_opt a b := by
  cases a <;> cases b <;> rfl

theorem node_le_congr {m₁ m₂ : List (String × TreeNode)}
    (h : strip_depths m₁ = strip_depths m₂) (a b : String) :
    node_le m₁ a b = node_le m₂ a b := by
  unfold node_le
  have h1 : (lookupNode m₁ a).map stripNode = (lookupNode m₂ a).map stripNode := by
    rw [← lookup_strip, ← lookup_strip, h]
  have h2 : (lookupNode m₁ b).map stripNode = (lookupNode m₂ b).map stripNode := by
    rw [← lookup_strip, ← lookup_strip, h]
  rw [← cmp_nodes_opt_strip (lookupNode m₁ a) (lookupNode m₁ b),
      ← cmp_nodes_opt_strip (lookupNode m₂ a) (lookupNode m₂ b), h1, h2]

theorem insertSorted_perm (le : String → String → Bool) (x : String) :
    ∀ l : List String, (insertSorted le x l).Perm (x :: l) := by
  intro l
  induction l with
  | nil => simp [insertSorted]
  | cons y ys ih =>
    by_cases h : le x y
    · simp [insertSorted, h]
    · simp only [insertSorted, if_neg h]
      exact ((ih.cons y).trans (List.Perm.swap x y ys))

theorem insertionSort_perm (le : String → String → Bool) :
    ∀ l : List String, (insertionSort le l).Perm l := by
  intro l
  induction l with
  | nil => simp [insertionSort]
  | cons x xs ih =>
    exact (insertSorted_perm le x (insertionSort le xs)).trans (ih.cons x)

theorem mem_insertionSort (le : String → String → Bool) (l : List String) (x : String) :
    x ∈ insertionSort le l ↔ x ∈ l :=
  (insertionSort_perm le l).mem_iff

theorem nodup_insertionSort (le : String → String → Bool) {l : List String}
    (h : l.Nodup) : (insertionSort le l).Nodup :=
  ((insertionSort_perm le l).nodup_iff).mpr h

theorem charListLt_false_trans {as bs cs : List Char}
    (h : charListLt bs as = false) (h' : charListLt cs bs = false) :
    charListLt cs as = false := by
  by_contra hca
  have hca' : charListLt cs as = true := by simpa using hca
  by_cases hab : charListLt as bs = true
  · have := charListLt_trans _ _ _ hca' hab
    simp [this] at h'
  · have hab' : as = bs := charListLt_connex _ _ (by simpa using hab) h
    rw [hab'] at hca'
    simp [hca'] at h'

theorem notGt_then_iff (o₁ o₂ : Ordering) :
    notGt (o₁.then o₂) = true ↔ o₁ = .lt ∨ (o₁ = .eq ∧ notGt o₂ = true) := by
  cases o₁ <;> simp [Ordering.then, notGt]

theorem node_le_some_iff {m : List (String × TreeNode)} {a b : String}
    {na nb : TreeNode} (ha : lookupNode m a = some na) (hb : lookupNode m b = some nb) :
    node_le m a b = true ↔
      (na.issue.priority < nb.issue.priority ∨
        (na.issue.priority = nb.issue.priority ∧
          charListLt nb.issue.title.data na.issue.title.data = false)) := by
  unfold node_le cmp_nodes_opt
  rw [ha, hb]
  rw [notGt_then_iff]
  rw [intCmp_lt_iff, intCmp_eq_iff, notGt_strCmp_iff]

theorem node_le_total (m : List (String × TreeNode)) (a b : String) :
    node_le m a b = true ∨ node_le m b a = true := by
  cases ha : lookupNode m a with
  | none =>
    left; unfold node_le cmp_nodes_opt; rw [ha]
    cases lookupNode m b <;> simp [notGt]
  | some na =>
    cases hb : lookupNode m b with
    | none => left; unfold node_le cmp_nodes_opt; rw [ha, hb]; simp [notGt]
    | some nb =>
      rw [node_le_some_iff ha hb, node_le_some_iff hb ha]
      rcases lt_trichotomy na.issue.priority nb.issue.priority with h | h | h
      · left; left; exact h
      · by_cases ht : charListLt nb.issue.title.data na.issue.title.data = false
        · left; right; exact ⟨h, ht⟩
        · right; right
          refine ⟨h.symm, ?_⟩
          have := charListLt_asymm _ _ (by simpa using ht)
          exact this
      · right; left; exact h

theorem node_le_trans_keys {m : List (String × TreeNode)} {a b c : String}
    {na nb nc : TreeNode}
    (ha : lookupNode m a = some na) (hb : lookupNode m b = some nb)
    (hc : lookupNode m c = some nc)
    (h1 : node_le m a b = true) (h2 : node_le m b c = true) :
    node_le m a c = true := by
  rw [node_le_some_iff ha hb] at h1
  rw [node_le_some_iff hb hc] at h2
  rw [node_le_some_iff ha hc]
  rcases h1 with h1 | ⟨h1e, h1t⟩
  · rcases h2 with h2 | ⟨h2e, _⟩
    · left; exact lt_trans h1 h2
    · left; rwa [← h2e]
  · rcases h2 with h2 | ⟨h2e, h2t⟩
    · left; rwa [h1e]
    · right; exact ⟨h1e.trans h2e, charListLt_false_trans h1t h2t⟩

theorem insertSorted_pairwise_on {le : String → String → Bool}
    {P : String → Prop}
    (total : ∀ a b, le a b = true ∨ le b a = true)
    (trans : ∀ a b c, P a → P b → P c → le a b = true → le b c = true → le a c = true)
    (x : String) (hx : P x) :
    ∀ l : List String, (∀ y ∈ l, P y) →
      l.Pairwise (fun a b => le a b = true) →
      (insertSorted le x l).Pairwise (fun a b => le a b = true) := by
  intro l
  induction l with
  | nil => intro _ _; simp [insertSorted]
  | cons y ys ih =>
    intro hP hp
    rcases List.pairwise_cons.mp hp with ⟨hy, hys⟩
    by_cases h : le x y
    · simp only [insertSorted, if_pos h]
      refine List.pairwise_cons.mpr ⟨?_, hp⟩
      intro z hz
      rcases List.mem_cons.mp hz with hz | hz
      · subst hz; exact h
      · exact trans x y z hx (hP y (by simp)) (hP z (by simp [hz])) h (hy z hz)
    · simp only [insertSorted, if_neg h]
      refine List.pairwise_cons.mpr ⟨?_, ih (fun z hz => hP z (by simp [hz])) hys⟩
      intro z hz
      have hz' : z ∈ x :: ys := (insertSorted_perm le x ys).mem_iff.mp hz
      rcases List.mem_cons.mp hz' with hz' | hz'
      · rw [hz']
        rcases total x y with h' | h'
        · exact absurd h' h
        · exact h'
      · exact hy z hz'

theorem insertionSort_pairwise_on {le : String → String → Bool}
    {P : String → Prop}
    (total : ∀ a b, le a b = true ∨ le b a = true)
    (trans : ∀ a b c, P a → P b → P c → le a b = true → le b c = true → le a c = true) :
    ∀ l : List String, (∀ y ∈ l, P y) →
      (insertionSort le l).Pairwise (fun a b => le a b = true) := by
  intro l
  induction l with
  | nil => intro _; simp [insertionSort]
  | cons x xs ih =>
    intro hP
    exact insertSorted_pairwise_on total trans x (hP x (by simp)) _
      (fun y hy => hP y (by simp [(mem_insertionSort le xs y).mp hy]))
      (ih (fun y hy => hP y (by simp [hy])))

theorem sort_ids_pairwise_keys (m : List (String × TreeNode)) (l : List String)
    (hl : ∀ x ∈ l, containsKey m x = true) :
    (sort_ids m l).Pairwise (fun a b => node_le m a b = true) := by
  refine insertionSort_pairwise_on (node_le_total m) ?_ l hl
  intro a b c ha hb hc h1 h2
  have ha' : (lookupNode m a).isSome = true := by rw [lookup_isSome_iff_containsKey]; exact ha
  have hb' : (lookupNode m b).isSome = true := by rw [lookup_isSome_iff_containsKey]; exact hb
  have hc' : (lookupNode m c).isSome = true := by rw [lookup_isSome_iff_containsKey]; exact hc
  rcases Option.isSome_iff_exists.mp ha' with ⟨na, hna⟩
  rcases Option.isSome_iff_exists.mp hb' with ⟨nb, hnb⟩
  rcases Option.isSome_iff_exists.mp hc' with ⟨nc, hnc⟩
  exact node_le_trans_keys hna hnb hnc h1 h2

theorem sort_ids_congr {m₁ m₂ : List (String × TreeNode)}
    (h : strip_depths m₁ = strip_depths m₂) (l : List String) :
    sort_ids m₁ l = sort_ids m₂ l := by
  unfold sort_ids
  have : node_le m₁ = node_le m₂ := by
    funext a b; exact node_le_congr h a b
  rw [this]

theorem mem_sort_ids (m : List (String × TreeNode)) (l : List String) (x : String) :
    x ∈ sort_ids m l ↔ x ∈ l :=
  mem_insertionSort _ l x

theorem walkShape_refl (st : WalkSt) : WalkShape st st :=
  ⟨rfl, ⟨[], by simp⟩, ⟨[], by simp⟩⟩

theorem walkShape_trans {a b c : WalkSt} (h1 : WalkShape a b) (h2 : WalkShape b c) :
    WalkShape a c := by
  obtain ⟨hn1, ⟨as1, ha1⟩, ⟨vs1, hv1⟩⟩ := h1
  obtain ⟨hn2, ⟨as2, ha2⟩, ⟨vs2, hv2⟩⟩ := h2
  exact ⟨hn2.trans hn1, ⟨as2 ++ as1, by simp [ha2, ha1]⟩,
    ⟨vs1 ++ vs2, by simp [hv2, hv1]⟩⟩

theorem walk_id_shape (fuel : Nat) :
    (∀ sc e id d st st',
      add_visible_recursive_id sc e fuel id d st = some st' → WalkShape st st') ∧
    (∀ sc e ids d st st',
      walk_id_list sc e fuel ids d st = some st' → WalkShape st st') := by
  induction fuel with
  | zero =>
    constructor
    · intro sc e id d st st' h
      rw [add_visible_recursive_id] at h
      exact absurd h (by simp)
    · intro sc e ids d st st' h
      cases ids with
      | nil =>
        rw [walk_id_list_nil] at h
        simp only [Option.some.injEq] at h
        rw [← h]; exact walkShape_refl st
      | cons c cs =>
        rw [walk_id_list_cons] at h
        rw [add_visible_recursive_id] at h
        exact absurd h (by simp)
  | succ f ih =>
    have hnode : ∀ sc e id d st st',
        add_visible_recursive_id sc e (f + 1) id d st = some st' → WalkShape st st' := by
      intro sc e id d st st' h
      rw [add_visible_recursive_id] at h
      simp only at h
      have hst1 : ∀ b : Bool, WalkShape st
          (if b then
            { st with visible_items := st.visible_items ++ [id],
                      nodes := set_depth st.nodes id d } else st) := by
        intro b
        cases b with
        | false => simpa using walkShape_refl st
        | true =>
          refine ⟨?_, ⟨[], by simp⟩, ⟨[id], by simp⟩⟩
          simpa using strip_set_depth st.nodes id d
      split at h
      · split at h
        · exact walkShape_trans (hst1 _) (ih.2 _ _ _ _ _ _ h)
        · simp only [Option.some.injEq] at h
          rw [← h]; exact hst1 _
      · simp only [Option.some.injEq] at h
        rw [← h]; exact hst1 _
    refine ⟨hnode, ?_⟩
    intro sc e ids
    induction ids with
    | nil =>
      intro d st st' h
      rw [walk_id_list_nil] at h
      simp only [Option.some.injEq] at h
      rw [← h]; exact walkShape_refl st
    | cons c cs ihl =>
      intro d st st' h
      rw [walk_id_list_cons] at h
      cases hm : add_visible_recursive_id sc e (f + 1) c d st with
      | none => rw [hm] at h; exact absurd h (by simp)
      | some stm =>
        rw [hm] at h
        exact walkShape_trans (hnode _ _ _ _ _ _ hm) (ihl _ _ _ h)

theorem walk_dep_shape (fuel : Nat) :
    (∀ sc e id d vis st st',
      add_visible_recursive_dep sc e fuel id d vis st = some st' → WalkShape st st') ∧
    (∀ sc e ids d vis st st',
      walk_dep_list sc e fuel ids d vis st = some st' → WalkShape st st') := by
  induction fuel with
  | zero =>
    constructor
    · intro sc e id d vis st st' h
      rw [add_visible_recursive_dep] at h
      exact absurd h (by simp)
    · intro sc e ids d vis st st' h
      cases ids with
      | nil =>
        rw [walk_dep_list_nil] at h
        simp only [Option.some.injEq] at h
        rw [← h]; exact walkShape_refl st
      | cons c cs =>
        rw [walk_dep_list_cons] at h
        rw [add_visible_recursive_dep] at h
        exact absurd h (by simp)
  | succ f ih =>
    have hnode : ∀ sc e id d vis st st',
        add_visible_recursive_dep sc e (f + 1) id d vis st = some st' →
          WalkShape st st' := by
      intro sc e id d vis st st' h
      rw [add_visible_recursive_dep] at h
      simp only at h
      split at h
      · simp only [Option.some.injEq] at h
        rw [← h]; exact walkShape_refl st
      · split at h
        · simp only [Option.some.injEq] at h
          rw [← h]; exact walkShape_refl st
        · have hst1 : ∀ b : Bool, WalkShape st
              (if b then
                { st with visible_items := st.visible_items ++ [id],
                          added := id :: st.added,
                          nodes := set_depth st.nodes id d } else st) := by
            intro b
            cases b with
            | false => simpa using walkShape_refl st
            | true =>
              refine ⟨?_, ⟨[id], by simp⟩, ⟨[id], by simp⟩⟩
              simpa using strip_set_depth st.nodes id d
          split at h
          · split at h
            · exact walkShape_trans (hst1 _) (ih.2 _ _ _ _ _ _ _ h)
            · simp only [Option.some.injEq] at h
              rw [← h]; exact hst1 _
          · simp only [Option.some.injEq] at h
            rw [← h]; exact hst1 _
    refine ⟨hnode, ?_⟩
    intro sc e ids
    induction ids with
    | nil =>
      intro d vis st st' h
      rw [walk_dep_list_nil] at h
      simp only [Option.some.injEq] at h
      rw [← h]; exact walkShape_refl st
    | cons c cs ihl =>
      intro d vis st st' h
      rw [walk_dep_list_cons] at h
      cases hm : add_visible_recursive_dep sc e (f + 1) c d vis st with
      | none => rw [hm] at h; exact absurd h (by simp)
      | some stm =>
        rw [hm] at h
        exact walkShape_trans (hnode _ _ _ _ _ _ _ hm) (ihl _ _ _ _ h)

theorem keys_eq_of_strip_eq {m₁ m₂ : List (String × TreeNode)}
    (h : strip_depths m₁ = strip_depths m₂) : keysOf m₁ = keysOf m₂ := by
  rw [← keys_strip m₁, ← keys_strip m₂, h]

theorem containsKey_eq_of_strip_eq {m₁ m₂ : List (String × TreeNode)}
    (h : strip_depths m₁ = strip_depths m₂) (k : String) :
    containsKey m₁ k = containsKey m₂ k := by
  rw [← containsKey_strip m₁, ← containsKey_strip m₂, h]

theorem unvisitedCount_le (m : List (String × TreeNode)) (visited : List String) :
    unvisitedCount m visited ≤ m.length := by
  calc ((keysOf m).filter (fun k => !visited.contains k)).length
      ≤ (keysOf m).length := List.length_filter_le _ _
    _ = m.length := by simp [keysOf]

theorem unvisitedCount_lt {m : List (String × TreeNode)} {visited : List String}
    {id : String} (hk : containsKey m id = true) (hv : visited.contains id = false) :
    unvisitedCount m (id :: visited) < unvisitedCount m visited := by
  unfold unvisitedCount
  have hfilter : (keysOf m).filter (fun k => !(id :: visited).contains k) =
      ((keysOf m).filter (fun k => !visited.contains k)).filter (fun k => !(k == id)) := by
    rw [List.filter_filter]
    apply List.filter_congr
    intro k _
    cases hke : (k == id) <;> cases hkv : visited.contains k <;>
      simp_all [List.contains_cons]
  rw [hfilter]
  apply List.length_filter_lt_length_iff_exists.mpr
  refine ⟨id, ?_, by simp⟩
  rw [List.mem_filter]
  have hv' : id ∉ visited := by
    intro hmem
    have hc : visited.contains id = true := by simpa using hmem
    rw [hv] at hc
    exact absurd hc (by simp)
  exact ⟨(containsKey_iff_mem_keys m id).mp hk, by simp [hv']⟩

theorem walk_dep_isSome (fuel : Nat) :
    (∀ sc e id d vis st, unvisitedCount st.nodes vis + 1 ≤ fuel →
      (add_visible_recursive_dep sc e fuel id d vis st).isSome) ∧
    (∀ sc e ids d vis st, unvisitedCount st.nodes vis + 1 ≤ fuel →
      (walk_dep_list sc e fuel ids d vis st).isSome) := by
  induction fuel with
  | zero =>
    constructor
    · intro sc e id d vis st hf; omega
    · intro sc e ids d vis st hf; omega
  | succ f ih =>
    have hnode : ∀ sc e id d vis st, unvisitedCount st.nodes vis + 1 ≤ f + 1 →
        (add_visible_recursive_dep sc e (f + 1) id d vis st).isSome := by
      intro sc e id d vis st hf
      rw [add_visible_recursive_dep]
      simp only
      split
      · simp
      · split
        · simp
        · split
          · rename_i hvis _ htrav
            split
            · rename_i node heq
              apply ih.2
              have hkeys : keysOf (if (sc || !is_closed_in st.nodes id) = true then
                  { st with visible_items := st.visible_items ++ [id],
                            added := id :: st.added,
                            nodes := set_depth st.nodes id d } else st).nodes =
                  keysOf st.nodes := by
                split <;> simp only <;>
                  first
                    | rfl
                    | (rw [← keys_strip, strip_set_depth, keys_strip])
              have hck : containsKey st.nodes id = true := by
                have h1 : (lookupNode (if (sc || !is_closed_in st.nodes id) = true then
                    { st with visible_items := st.visible_items ++ [id],
                              added := id :: st.added,
                              nodes := set_depth st.nodes id d } else st).nodes id).isSome
                    = true := by rw [heq]; rfl
                rw [lookup_isSome_iff_containsKey] at h1
                rw [containsKey_iff_mem_keys] at h1 ⊢
                rwa [hkeys] at h1
              have hvis' : vis.contains id = false := by
                simpa using hvis
              have hlt := unvisitedCount_lt hck hvis'
              have : unvisitedCount st.nodes (id :: vis) =
                  unvisitedCount (if (sc || !is_closed_in st.nodes id) = true then
                    { st with visible_items := st.visible_items ++ [id],
                              added := id :: st.added,
                              nodes := set_depth st.nodes id d } else st).nodes
                    (id :: vis) := by
                unfold unvisitedCount; rw [hkeys]
              omega
            · simp
          · simp
    refine ⟨hnode, ?_⟩
    intro sc e ids
    induction ids with
    | nil => intro d vis st _; rw [walk_dep_list_nil]; simp
    | cons c cs ihl =>
      intro d vis st hf
      rw [walk_dep_list_cons]
      cases hm : add_visible_recursive_dep sc e (f + 1) c d vis st with
      | none =>
        have := hnode sc e c d vis st hf
        rw [hm] at this; simp at this
      | some stm =>
        simp only
        have hsh := (walk_dep_shape (f + 1)).1 _ _ _ _ _ _ _ hm
        have hkeys := keys_eq_of_strip_eq hsh.1
        apply ihl
        unfold unvisitedCount
        rw [hkeys]
        exact hf

theorem lastDotIdx_lt : ∀ {cs : List Char} {i : Nat}, lastDotIdx cs = some i →
    i < cs.length := by
  intro cs
  induction cs with
  | nil => intro i h; simp [lastDotIdx] at h
  | cons c cs ih =>
    intro i h
    rw [lastDotIdx] at h
    cases hr : lastDotIdx cs with
    | some j =>
      rw [hr] at h
      simp only [Option.some.injEq] at h
      have := ih hr
      simp only [List.length_cons]
      omega
    | none =>
      rw [hr] at h
      by_cases hc : c = '.'
      · simp [hc] at h
        simp [← h]
      · simp [hc] at h

theorem parent_from_length {c p : String} (h : parent_from_dotted_id c = some p) :
    p.length < c.length := by
  unfold parent_from_dotted_id at h
  cases hr : lastDotIdx c.data with
  | none => rw [hr] at h; simp at h
  | some i =>
    rw [hr] at h
    have h : String.mk (c.data.take i) = p := by simpa using h
    have hi := lastDotIdx_lt hr
    rw [← h]
    show (c.data.take i).length < c.length
    rw [List.length_take]
    show min i c.data.length < c.data.length
    omega

theorem mem_strip_iff {m : List (String × TreeNode)} {k : String} {n : TreeNode} :
    (k, n) ∈ strip_depths m ↔ ∃ n₀, (k, n₀) ∈ m ∧ stripNode n₀ = n := by
  unfold strip_depths
  rw [List.mem_map]
  constructor
  · rintro ⟨⟨k', n₀⟩, hp, he⟩
    simp only [Prod.mk.injEq] at he
    obtain ⟨hk, hn⟩ := he
    subst hk
    exact ⟨n₀, hp, hn⟩
  · rintro ⟨n₀, hmem, he⟩
    exact ⟨(k, n₀), hmem, by simp [he]⟩

theorem IdWF_of_strip_eq {m₁ m₂ : List (String × TreeNode)}
    (h : strip_depths m₁ = strip_depths m₂) (hwf : IdWF m₁) : IdWF m₂ := by
  intro p hp
  have h1 : (p.1, stripNode p.2) ∈ strip_depths m₂ := by
    unfold strip_depths
    rw [List.mem_map]
    exact ⟨p, hp, rfl⟩
  rw [← h] at h1
  rcases mem_strip_iff.mp h1 with ⟨n₀, hmem, hstrip⟩
  have hch : n₀.children = p.2.children := by
    have := congrArg TreeNode.children hstrip
    simpa [stripNode] using this
  have hw := hwf (p.1, n₀) hmem
  rw [hch] at hw
  refine fun c hc => ⟨(hw c hc).1, ?_⟩
  rw [← containsKey_eq_of_strip_eq h c]
  exact (hw c hc).2

theorem childNodupWF_of_strip_eq {m₁ m₂ : List (String × TreeNode)}
    (h : strip_depths m₁ = strip_depths m₂) (hwf : ChildNodupWF m₁) :
    ChildNodupWF m₂ := by
  intro p hp
  have h1 : (p.1, stripNode p.2) ∈ strip_depths m₂ := by
    unfold strip_depths
    rw [List.mem_map]
    exact ⟨p, hp, rfl⟩
  rw [← h] at h1
  rcases mem_strip_iff.mp h1 with ⟨n₀, hmem, hstrip⟩
  have hch : n₀.children = p.2.children := by
    have := congrArg TreeNode.children hstrip
    simpa [stripNode] using this
  have hw := hwf (p.1, n₀) hmem
  rwa [hch] at hw

theorem longerCount_le (m : List (String × TreeNode)) (id : String) :
    longerCount m id ≤ m.length := by
  calc ((keysOf m).filter (fun k => id.length < k.length)).length
      ≤ (keysOf m).length := List.length_filter_le _ _
    _ = m.length := by simp [keysOf]

theorem longerCount_lt {m : List (String × TreeNode)} {id c : String}
    (hk : containsKey m c = true) (hlen : id.length < c.length) :
    longerCount m c < longerCount m id := by
  unfold longerCount
  have hfilter : (keysOf m).filter (fun k => c.length < k.length) =
      ((keysOf m).filter (fun k => id.length < k.length)).filter
        (fun k => decide (c.length < k.length)) := by
    rw [List.filter_filter]
    apply List.filter_congr
    intro k _
    by_cases hck : c.length < k.length
    · have hik : id.length < k.length := lt_trans hlen hck
      simp [hck, hik]
    · simp [hck]
  rw [hfilter]
  apply List.length_filter_lt_length_iff_exists.mpr
  refine ⟨c, ?_, by simp⟩
  rw [List.mem_filter]
  exact ⟨(containsKey_iff_mem_keys m c).mp hk, by simp [hlen]⟩

theorem walk_id_isSome (fuel : Nat) :
    (∀ sc e id d st, IdWF st.nodes → longerCount st.nodes id + 1 ≤ fuel →
      (add_visible_recursive_id sc e fuel id d st).isSome) ∧
    (∀ sc e ids d st, IdWF st.nodes →
      (∀ c ∈ ids, longerCount st.nodes c + 1 ≤ fuel) →
      (walk_id_list sc e fuel ids d st).isSome) := by
  induction fuel with
  | zero =>
    constructor
    · intro sc e id d st _ hf; omega
    · intro sc e ids d st _ hf
      cases ids with
      | nil => rw [walk_id_list_nil]; simp
      | cons c cs => have := hf c (by simp); omega
  | succ f ih =>
    have hnode : ∀ sc e id d st, IdWF st.nodes → longerCount st.nodes id + 1 ≤ f + 1 →
        (add_visible_recursive_id sc e (f + 1) id d st).isSome := by
      intro sc e id d st hwf hf
      rw [add_visible_recursive_id]
      simp only
      split
      · split
        · rename_i htrav node heq
          apply ih.2
          · -- well-formedness transfers to the emission-updated state
            rename_i hemit
            revert heq
            split <;> intro heq
            · exact IdWF_of_strip_eq (strip_set_depth st.nodes id d).symm hwf
            · exact hwf
          · intro c hc
            revert heq
            split <;> intro heq <;>
              [(have hstripe : strip_depths (set_depth st.nodes id d) = strip_depths st.nodes :=
                  strip_set_depth st.nodes id d);
               (have hstripe : strip_depths st.nodes = strip_depths st.nodes := rfl)] <;>
            · have hwf' := IdWF_of_strip_eq hstripe.symm hwf
              have hmem := mem_of_lookup_some heq
              have hprop := hwf' _ hmem
              have hc' : c ∈ node.children := by
                have := (mem_sort_ids _ node.children c).mp hc
                exact this
              have hpc := hprop c hc'
              have hlen : id.length < c.length := parent_from_length hpc.1
              have hlc := longerCount_lt hpc.2 hlen
              have hke : keysOf (set_depth st.nodes id d) = keysOf st.nodes := by
                rw [← keys_strip, strip_set_depth, keys_strip]
              unfold longerCount at hlc hf ⊢
              first
                | (rw [hke] at hlc ⊢; omega)
                | omega
        · simp
      · simp
    refine ⟨hnode, ?_⟩
    intro sc e ids
    induction ids with
    | nil => intro d st _ _; rw [walk_id_list_nil]; simp
    | cons c cs ihl =>
      intro d st hwf hf
      rw [walk_id_list_cons]
      cases hm : add_visible_recursive_id sc e (f + 1) c d st with
      | none =>
        have := hnode sc e c d st hwf (hf c (by simp))
        rw [hm] at this; simp at this
      | some stm =>
        simp only
        have hsh := (walk_id_shape (f + 1)).1 _ _ _ _ _ _ hm
        have hkeys := keys_eq_of_strip_eq hsh.1
        apply ihl
        · exact IdWF_of_strip_eq hsh.1.symm hwf
        · intro c' hc'
          have := hf c' (by simp [hc'])
          unfold longerCount
          rw [hkeys]
          exact this

theorem stripNode_eq_parts {n₁ n₂ : TreeNode} (h : stripNode n₁ = stripNode n₂) :
    n₁.issue = n₂.issue ∧ n₁.children = n₂.children ∧ n₁.dep_children = n₂.dep_children := by
  cases n₁; cases n₂
  simp [stripNode] at h
  simp [h.1, h.2.1, h.2.2]

theorem lookup_rel_of_strip_eq {m₁ m₂ : List (String × TreeNode)}
    (h : strip_depths m₁ = strip_depths m₂) (k : String) :
    (lookupNode m₁ k).map stripNode = (lookupNode m₂ k).map stripNode := by
  rw [← lookup_strip, ← lookup_strip, h]

theorem is_closed_in_congr {m₁ m₂ : List (String × TreeNode)}
    (h : strip_depths m₁ = strip_depths m₂) (id : String) :
    is_closed_in m₁ id = is_closed_in m₂ id := by
  unfold is_closed_in
  have h1 := lookup_rel_of_strip_eq h id
  cases ha : lookupNode m₁ id with
  | none =>
    cases hb : lookupNode m₂ id with
    | none => rfl
    | some n₂ => rw [ha, hb] at h1; exact absurd h1 (by simp)
  | some n₁ =>
    cases hb : lookupNode m₂ id with
    | none => rw [ha, hb] at h1; exact absurd h1 (by simp)
    | some n₂ =>
      rw [ha, hb] at h1
      have hi := (stripNode_eq_parts (by simpa using h1)).1
      simp [hi]

theorem walk_id_congr (fuel : Nat) :
    (∀ sc e₁ e₂ id d st₁ st₂, (∀ y, e₁.contains y = e₂.contains y) → StRel st₁ st₂ →
      OptStRel (add_visible_recursive_id sc e₁ fuel id d st₁)
        (add_visible_recursive_id sc e₂ fuel id d st₂)) ∧
    (∀ sc e₁ e₂ ids d st₁ st₂, (∀ y, e₁.contains y = e₂.contains y) → StRel st₁ st₂ →
      OptStRel (walk_id_list sc e₁ fuel ids d st₁)
        (walk_id_list sc e₂ fuel ids d st₂)) := by
  induction fuel with
  | zero =>
    constructor
    · intro sc e₁ e₂ id d st₁ st₂ he hst
      rw [add_visible_recursive_id, add_visible_recursive_id]
      trivial
    · intro sc e₁ e₂ ids d st₁ st₂ he hst
      cases ids with
      | nil => rw [walk_id_list_nil, walk_id_list_nil]; exact hst
      | cons c cs =>
        rw [walk_id_list_cons, walk_id_list_cons, add_visible_recursive_id,
          add_visible_recursive_id]
        trivial
  | succ f ih =>
    have hnode : ∀ sc e₁ e₂ id d st₁ st₂,
        (∀ y, e₁.contains y = e₂.contains y) → StRel st₁ st₂ →
        OptStRel (add_visible_recursive_id sc e₁ (f + 1) id d st₁)
          (add_visible_recursive_id sc e₂ (f + 1) id d st₂) := by
      intro sc e₁ e₂ id d st₁ st₂ he hst
      obtain ⟨hn, hv, ha⟩ := hst
      rw [add_visible_recursive_id, add_visible_recursive_id]
      simp only
      rw [is_closed_in_congr hn id, hv, he id]
      set cl := is_closed_in st₂.nodes id with hcl
      set st1a := if (sc || !cl) = true then
          { st₁ with visible_items := st₂.visible_items ++ [id],
                     nodes := set_depth st₁.nodes id d } else st₁ with hst1a
      set st1b := if (sc || !cl) = true then
          { st₂ with visible_items := st₂.visible_items ++ [id],
                     nodes := set_depth st₂.nodes id d } else st₂ with hst1b
      have hrel1 : StRel st1a st1b := by
        rw [hst1a, hst1b]
        split
        · exact ⟨by rw [strip_set_depth, strip_set_depth, hn], rfl, ha⟩
        · exact ⟨hn, hv, ha⟩
      obtain ⟨hn1, hv1, ha1⟩ := hrel1
      split
      · have hlk := lookup_rel_of_strip_eq hn1 id
        cases hla : lookupNode st1a.nodes id with
        | none =>
          cases hlb : lookupNode st1b.nodes id with
          | none => exact ⟨hn1, hv1, ha1⟩
          | some n₂ => rw [hla, hlb] at hlk; exact absurd hlk (by simp)
        | some n₁ =>
          cases hlb : lookupNode st1b.nodes id with
          | none => rw [hla, hlb] at hlk; exact absurd hlk (by simp)
          | some n₂ =>
            rw [hla, hlb] at hlk
            have hparts := stripNode_eq_parts (by simpa using hlk)
            dsimp only
            rw [hparts.2.1, sort_ids_congr hn1 n₂.children]
            exact ih.2 sc e₁ e₂ _ _ st1a st1b he ⟨hn1, hv1, ha1⟩
      · exact ⟨hn1, hv1, ha1⟩
    refine ⟨hnode, ?_⟩
    intro sc e₁ e₂ ids
    induction ids with
    | nil =>
      intro d st₁ st₂ he hst
      rw [walk_id_list_nil, walk_id_list_nil]
      exact hst
    | cons c cs ihl =>
      intro d st₁ st₂ he hst
      rw [walk_id_list_cons, walk_id_list_cons]
      have h1 := hnode sc e₁ e₂ c d st₁ st₂ he hst
      cases hm1 : add_visible_recursive_id sc e₁ (f + 1) c d st₁ with
      | none =>
        rw [hm1] at h1
        cases hm2 : add_visible_recursive_id sc e₂ (f + 1) c d st₂ with
        | none => trivial
        | some s => rw [hm2] at h1; exact absurd h1 (by simp [OptStRel])
      | some s₁ =>
        rw [hm1] at h1
        cases hm2 : add_visible_recursive_id sc e₂ (f + 1) c d st₂ with
        | none => rw [hm2] at h1; exact absurd h1 (by simp [OptStRel])
        | some s₂ =>
          rw [hm2] at h1
          exact ihl d s₁ s₂ he h1

theorem walk_dep_congr (fuel : Nat) :
    (∀ sc e₁ e₂ id d vis st₁ st₂, (∀ y, e₁.contains y = e₂.contains y) → StRel st₁ st₂ →
      OptStRel (add_visible_recursive_dep sc e₁ fuel id d vis st₁)
        (add_visible_recursive_dep sc e₂ fuel id d vis st₂)) ∧
    (∀ sc e₁ e₂ ids d vis st₁ st₂, (∀ y, e₁.contains y = e₂.contains y) → StRel st₁ st₂ →
      OptStRel (walk_dep_list sc e₁ fuel ids d vis st₁)
        (walk_dep_list sc e₂ fuel ids d vis st₂)) := by
  induction fuel with
  | zero =>
    constructor
    · intro sc e₁ e₂ id d vis st₁ st₂ he hst
      rw [add_visible_recursive_dep, add_visible_recursive_dep]
      trivial
    · intro sc e₁ e₂ ids d vis st₁ st₂ he hst
      cases ids with
      | nil => rw [walk_dep_list_nil, walk_dep_list_nil]; exact hst
      | cons c cs =>
        rw [walk_dep_list_cons, walk_dep_list_cons, add_visible_recursive_dep,
          add_visible_recursive_dep]
        trivial
  | succ f ih =>
    have hnode : ∀ sc e₁ e₂ id d vis st₁ st₂,
        (∀ y, e₁.contains y = e₂.contains y) → StRel st₁ st₂ →
        OptStRel (add_visible_recursive_dep sc e₁ (f + 1) id d vis st₁)
          (add_visible_recursive_dep sc e₂ (f + 1) id d vis st₂) := by
      intro sc e₁ e₂ id d vis st₁ st₂ he hst
      obtain ⟨hn, hv, ha⟩ := hst
      rw [add_visible_recursive_dep, add_visible_recursive_dep]
      simp only
      rw [is_closed_in_congr hn id, hv, ha, he id]
      set cl := is_closed_in st₂.nodes id with hcl
      split
      · exact ⟨hn, hv, ha⟩
      · split
        · exact ⟨hn, hv, ha⟩
        · set st1a := if (sc || !cl) = true then
              { st₁ with visible_items := st₂.visible_items ++ [id],
                         added := id :: st₂.added,
                         nodes := set_depth st₁.nodes id d } else st₁ with hst1a
          set st1b := if (sc || !cl) = true then
              { st₂ with visible_items := st₂.visible_items ++ [id],
                         added := id :: st₂.added,
                         nodes := set_depth st₂.nodes id d } else st₂ with hst1b
          have hrel1 : StRel st1a st1b := by
            rw [hst1a, hst1b]
            split
            · exact ⟨by rw [strip_set_depth, strip_set_depth, hn], rfl, rfl⟩
            · exact ⟨hn, hv, ha⟩
          obtain ⟨hn1, hv1, ha1⟩ := hrel1
          split
          · have hlk := lookup_rel_of_strip_eq hn1 id
            cases hla : lookupNode st1a.nodes id with
            | none =>
              cases hlb : lookupNode st1b.nodes id with
              | none => exact ⟨hn1, hv1, ha1⟩
              | some n₂ => rw [hla, hlb] at hlk; exact absurd hlk (by simp)
            | some n₁ =>
              cases hlb : lookupNode st1b.nodes id with
              | none => rw [hla, hlb] at hlk; exact absurd hlk (by simp)
              | some n₂ =>
                rw [hla, hlb] at hlk
                have hparts := stripNode_eq_parts (by simpa using hlk)
                dsimp only
                rw [hparts.2.2, sort_ids_congr hn1 n₂.dep_children]
                exact ih.2 sc e₁ e₂ _ _ _ st1a st1b he ⟨hn1, hv1, ha1⟩
          · exact ⟨hn1, hv1, ha1⟩
    refine ⟨hnode, ?_⟩
    intro sc e₁ e₂ ids
    induction ids with
    | nil =>
      intro d vis st₁ st₂ he hst
      rw [walk_dep_list_nil, walk_dep_list_nil]
      exact hst
    | cons c cs ihl =>
      intro d vis st₁ st₂ he hst
      rw [walk_dep_list_cons, walk_dep_list_cons]
      have h1 := hnode sc e₁ e₂ c d vis st₁ st₂ he hst
      cases hm1 : add_visible_recursive_dep sc e₁ (f + 1) c d vis st₁ with
      | none =>
        rw [hm1] at h1
        cases hm2 : add_visible_recursive_dep sc e₂ (f + 1) c d vis st₂ with
        | none => trivial
        | some s => rw [hm2] at h1; exact absurd h1 (by simp [OptStRel])
      | some s₁ =>
        rw [hm1] at h1
        cases hm2 : add_visible_recursive_dep sc e₂ (f + 1) c d vis st₂ with
        | none => rw [hm2] at h1; exact absurd h1 (by simp [OptStRel])
        | some s₂ =>
          rw [hm2] at h1
          exact ihl d vis s₁ s₂ he h1

theorem rebuild_visible_eq (t : IssueTree) :
    rebuild_visible t = (rebuild_walk t).map (fun st =>
      { t with nodes := st.nodes, visible_items := st.visible_items,
               cursor := if st.visible_items.length ≤ t.cursor && !st.visible_items.isEmpty
                 then st.visible_items.length - 1 else t.cursor }) := by
  unfold rebuild_visible rebuild_walk
  cases t.hierarchy_mode <;>
    (cases hw : walk_id_list t.show_closed t.expanded (t.nodes.length + 1) t.root_ids 0
        { nodes := t.nodes, visible_items := [], added := [] } <;>
     cases hd : walk_dep_list t.show_closed t.dep_expanded (t.nodes.length + 1)
        t.dep_root_ids 0 [] { nodes := t.nodes, visible_items := [], added := [] } <;>
     simp [hw, hd])

theorem rebuild_walk_isSome {t : IssueTree}
    (hwf : t.hierarchy_mode = HierarchyMode.IdBased → IdWF t.nodes) :
    (rebuild_walk t).isSome := by
  unfold rebuild_walk
  cases hm : t.hierarchy_mode with
  | IdBased =>
    exact (walk_id_isSome (t.nodes.length + 1)).2 t.show_closed t.expanded
      t.root_ids 0 { nodes := t.nodes, visible_items := [], added := [] } (hwf hm)
      (fun c _ => by have := longerCount_le t.nodes c; simp only; omega)
  | DependencyBased =>
    exact (walk_dep_isSome (t.nodes.length + 1)).2 t.show_closed t.dep_expanded
      t.dep_root_ids 0 [] { nodes := t.nodes, visible_items := [], added := [] }
      (by have := unvisitedCount_le t.nodes []; simp only; omega)

theorem rebuild_visible_isSome {t : IssueTree}
    (hwf : t.hierarchy_mode = HierarchyMode.IdBased → IdWF t.nodes) :
    (rebuild_visible t).isSome := by
  rw [rebuild_visible_eq]
  rcases Option.isSome_iff_exists.mp (rebuild_walk_isSome hwf) with ⟨st, hst⟩
  rw [hst]
  rfl

/-- The visible list produced by a rebuild depends on the tree only through
the stripped node map, the root lists, the fold-state memberships, the flag
and the mode. -/
theorem rebuild_walk_congr {t₁ t₂ : IssueTree}
    (hn : strip_depths t₁.nodes = strip_depths t₂.nodes)
    (hr : t₁.root_ids = t₂.root_ids)
    (hdr : t₁.dep_root_ids = t₂.dep_root_ids)
    (hsc : t₁.show_closed = t₂.show_closed)
    (hm : t₁.hierarchy_mode = t₂.hierarchy_mode)
    (he : ∀ y, t₁.expanded.contains y = t₂.expanded.contains y)
    (hde : ∀ y, t₁.dep_expanded.contains y = t₂.dep_expanded.contains y) :
    OptStRel (rebuild_walk t₁) (rebuild_walk t₂) := by
  have hlen : t₁.nodes.length = t₂.nodes.length := by
    have := congrArg List.length hn
    simpa [strip_depths] using this
  unfold rebuild_walk
  rw [hm, hr, hdr, hsc, hlen]
  cases t₂.hierarchy_mode with
  | IdBased =>
    exact (walk_id_congr (t₂.nodes.length + 1)).2 t₂.show_closed t₁.expanded t₂.expanded
      t₂.root_ids 0 _ _ he ⟨hn, rfl, rfl⟩
  | DependencyBased =>
    exact (walk_dep_congr (t₂.nodes.length + 1)).2 t₂.show_closed t₁.dep_expanded
      t₂.dep_expanded t₂.dep_root_ids 0 [] _ _ hde ⟨hn, rfl, rfl⟩

theorem walk_dep_nodup (fuel : Nat) :
    (∀ sc e id d vis st st',
      add_visible_recursive_dep sc e fuel id d vis st = some st' →
      DepInv st → DepInv st') ∧
    (∀ sc e ids d vis st st',
      walk_dep_list sc e fuel ids d vis st = some st' →
      DepInv st → DepInv st') := by
  induction fuel with
  | zero =>
    constructor
    · intro sc e id d vis st st' h _
      rw [add_visible_recursive_dep] at h
      exact absurd h (by simp)
    · intro sc e ids d vis st st' h hi
      cases ids with
      | nil =>
        rw [walk_dep_list_nil] at h
        simp only [Option.some.injEq] at h
        rwa [← h]
      | cons c cs =>
        rw [walk_dep_list_cons, add_visible_recursive_dep] at h
        exact absurd h (by simp)
  | succ f ih =>
    have hnode : ∀ sc e id d vis st st',
        add_visible_recursive_dep sc e (f + 1) id d vis st = some st' →
        DepInv st → DepInv st' := by
      intro sc e id d vis st st' h hi
      rw [add_visible_recursive_dep] at h
      simp only at h
      split at h
      · simp only [Option.some.injEq] at h; rwa [← h]
      · split at h
        · simp only [Option.some.injEq] at h; rwa [← h]
        · rename_i hnotadded
          have hst1 : DepInv (if (sc || !is_closed_in st.nodes id) = true then
              { st with visible_items := st.visible_items ++ [id],
                        added := id :: st.added,
                        nodes := set_depth st.nodes id d } else st) := by
            split
            · rename_i hemit
              have hadd : st.added.contains id = false := by
                rw [hemit] at hnotadded
                simpa using hnotadded
              have hidvis : id ∉ st.visible_items := by
                intro hmem
                have := hi.2 id hmem
                rw [hadd] at this
                exact absurd this (by simp)
              constructor
              · simp only
                rw [List.nodup_append]
                exact ⟨hi.1, List.nodup_singleton id, by
                  intro a ha hb
                  simp only [List.mem_singleton] at hb
                  rw [hb] at ha
                  exact hidvis ha⟩
              · intro x hx
                simp only at hx ⊢
                rcases List.mem_append.mp hx with hx | hx
                · rw [List.contains_cons]
                  rw [hi.2 x hx]
                  simp
                · simp only [List.mem_singleton] at hx
                  rw [hx, List.contains_cons]
                  simp
            · exact hi
          split at h
          · split at h
            · exact ih.2 _ _ _ _ _ _ _ h hst1
            · simp only [Option.some.injEq] at h; rwa [← h]
          · simp only [Option.some.injEq] at h; rwa [← h]
    refine ⟨hnode, ?_⟩
    intro sc e ids
    induction ids with
    | nil =>
      intro d vis st st' h hi
      rw [walk_dep_list_nil] at h
      simp only [Option.some.injEq] at h
      rwa [← h]
    | cons c cs ihl =>
      intro d vis st st' h hi
      rw [walk_dep_list_cons] at h
      cases hm : add_visible_recursive_dep sc e (f + 1) c d vis st with
      | none => rw [hm] at h; exact absurd h (by simp)
      | some stm =>
        rw [hm] at h
        exact ihl _ _ _ _ h (hnode _ _ _ _ _ _ _ hm hi)

theorem parentKeyOf_length {ks : List String} {x p : String}
    (h : parentKeyOf ks x = some p) : p.length < x.length := by
  unfold parentKeyOf at h
  cases hp : parent_from_dotted_id x with
  | none => rw [hp] at h; exact absurd h (by simp)
  | some q =>
    rw [hp] at h
    have hqp : q = p := by
      by_cases hc : q ∈ ks
      · simpa [hc] using h
      · simp [hc] at h
    rw [← hqp]
    exact parent_from_length hp

theorem reachK_length {ks : List String} {x y : String} (h : ReachK ks x y) :
    y.length ≤ x.length := by
  induction h with
  | refl => exact le_refl _
  | step hp _ ih => exact le_trans ih (le_of_lt (parentKeyOf_length hp))

theorem reachK_trans {ks : List String} {x y z : String}
    (h1 : ReachK ks x y) (h2 : ReachK ks y z) : ReachK ks x z := by
  induction h1 with
  | refl => exact h2
  | step hp _ ih => exact ReachK.step hp (ih h2)

theorem reachK_linear {ks : List String} {x a b : String}
    (h1 : ReachK ks x a) (h2 : ReachK ks x b) :
    ReachK ks a b ∨ ReachK ks b a := by
  induction h1 with
  | refl => left; exact h2
  | step hp hr ih =>
    rename_i x' p y'
    cases h2 with
    | refl => right; exact ReachK.step hp hr
    | step hp' hr' =>
      rw [hp] at hp'
      have : p = _ := (Option.some.injEq _ _).mp hp'
      rw [← this] at hr'
      exact ih hr'

theorem reachK_sibling_disjoint {ks : List String} {q c₁ c₂ x : String}
    (hc₁ : parentKeyOf ks c₁ = some q) (hc₂ : parentKeyOf ks c₂ = some q)
    (hne : c₁ ≠ c₂) (h1 : ReachK ks x c₁) (h2 : ReachK ks x c₂) : False := by
  rcases reachK_linear h1 h2 with h | h
  · cases h with
    | refl => exact hne rfl
    | step hp hr =>
      rw [hc₁] at hp
      have hq : q = _ := (Option.some.injEq _ _).mp hp
      rw [← hq] at hr
      have := reachK_length hr
      have := parentKeyOf_length hc₂
      omega
  · cases h with
    | refl => exact hne rfl
    | step hp hr =>
      rw [hc₂] at hp
      have hq : q = _ := (Option.some.injEq _ _).mp hp
      rw [← hq] at hr
      have := reachK_length hr
      have := parentKeyOf_length hc₁
      omega

theorem reachK_root_disjoint {ks : List String} {r₁ r₂ x : String}
    (hr₁ : parentKeyOf ks r₁ = none) (hr₂ : parentKeyOf ks r₂ = none)
    (hne : r₁ ≠ r₂) (h1 : ReachK ks x r₁) (h2 : ReachK ks x r₂) : False := by
  rcases reachK_linear h1 h2 with h | h
  · cases h with
    | refl => exact hne rfl
    | step hp _ => rw [hr₁] at hp; exact absurd hp (by simp)
  · cases h with
    | refl => exact hne rfl
    | step hp _ => rw [hr₂] at hp; exact absurd hp (by simp)

theorem contains_keysOf_eq (m : List (String × TreeNode)) (p : String) :
    (keysOf m).contains p = containsKey m p := by
  by_cases h : containsKey m p = true
  · rw [h]
    have := (containsKey_iff_mem_keys m p).mp h
    simpa using this
  · have h' : containsKey m p = false := by simpa using h
    rw [h']
    have : p ∉ keysOf m := fun hmem => h ((containsKey_iff_mem_keys m p).mpr hmem)
    simpa using this

theorem conesDisjoint_of_cons {ks : List String} {c : String} {cs : List String}
    (h : ConesDisjoint ks (c :: cs)) : ConesDisjoint ks cs := by
  intro c₁ h₁ c₂ h₂ hne x r₁ r₂
  exact h c₁ (by simp [h₁]) c₂ (by simp [h₂]) hne x r₁ r₂

/-- Everything the ID-mode walk emits lies in the reachability cone of the
start node, without duplicates.  This is the heart of the ID-mode
single-appearance invariant: cones of distinct siblings (and of distinct
roots) are disjoint. -/
theorem walk_id_emit (fuel : Nat) :
    (∀ sc e id d st st', IdWF st.nodes → ChildNodupWF st.nodes →
      add_visible_recursive_id sc e fuel id d st = some st' →
      ∃ vs, st'.visible_items = st.visible_items ++ vs ∧ vs.Nodup ∧
        ∀ x ∈ vs, ReachK (keysOf st.nodes) x id) ∧
    (∀ sc e ids d st st', IdWF st.nodes → ChildNodupWF st.nodes →
      walk_id_list sc e fuel ids d st = some st' →
      ∃ vs, st'.visible_items = st.visible_items ++ vs ∧
        (∀ x ∈ vs, ∃ c ∈ ids, ReachK (keysOf st.nodes) x c) ∧
        (ids.Nodup → ConesDisjoint (keysOf st.nodes) ids → vs.Nodup)) := by
  induction fuel with
  | zero =>
    constructor
    · intro sc e id d st st' _ _ h
      rw [add_visible_recursive_id] at h
      exact absurd h (by simp)
    · intro sc e ids d st st' _ _ h
      cases ids with
      | nil =>
        rw [walk_id_list_nil] at h
        simp only [Option.some.injEq] at h
        exact ⟨[], by simp [← h], by simp, by simp⟩
      | cons c cs =>
        rw [walk_id_list_cons, add_visible_recursive_id] at h
        exact absurd h (by simp)
  | succ f ih =>
    have hnode : ∀ sc e id d st st', IdWF st.nodes → ChildNodupWF st.nodes →
        add_visible_recursive_id sc e (f + 1) id d st = some st' →
        ∃ vs, st'.visible_items = st.visible_items ++ vs ∧ vs.Nodup ∧
          ∀ x ∈ vs, ReachK (keysOf st.nodes) x id := by
      intro sc e id d st st' hwf hcn h
      rw [add_visible_recursive_id] at h
      simp only at h
      set st1 := if (sc || !is_closed_in st.nodes id) = true then
          { st with visible_items := st.visible_items ++ [id],
                    nodes := set_depth st.nodes id d } else st with hst1
      have hstrip1 : strip_depths st1.nodes = strip_depths st.nodes := by
        rw [hst1]; split
        · exact strip_set_depth st.nodes id d
        · rfl
      have hkeys1 : keysOf st1.nodes = keysOf st.nodes := keys_eq_of_strip_eq hstrip1
      have hwf1 : IdWF st1.nodes := IdWF_of_strip_eq hstrip1.symm hwf
      have hcn1 : ChildNodupWF st1.nodes := childNodupWF_of_strip_eq hstrip1.symm hcn
      have hvis1 : ∃ ep, st1.visible_items = st.visible_items ++ ep ∧
          (∀ x ∈ ep, x = id) ∧ ep.Nodup := by
        rw [hst1]; split
        · exact ⟨[id], rfl, by simp, by simp⟩
        · exact ⟨[], by simp, by simp, by simp⟩
      obtain ⟨ep, hep, hepid, hepnd⟩ := hvis1
      split at h
      · split at h
        · rename_i htrav node heq
          have hmem := mem_of_lookup_some heq
          have hchild := hwf1 _ hmem
          have hchildnd := hcn1 _ hmem
          have hidkeys : (keysOf st.nodes).contains id = true := by
            rw [contains_keysOf_eq]
            rw [← containsKey_eq_of_strip_eq hstrip1 id]
            have h1 : (lookupNode st1.nodes id).isSome = true := by rw [heq]; rfl
            rwa [lookup_isSome_iff_containsKey] at h1
          have hidmem : id ∈ keysOf st.nodes := by
            have h2 := hidkeys
            rw [contains_keysOf_eq] at h2
            exact (containsKey_iff_mem_keys _ _).mp h2
          have hpk : ∀ c ∈ node.children, parentKeyOf (keysOf st.nodes) c = some id := by
            intro c hc
            have hp := hchild c hc
            unfold parentKeyOf
            rw [hp.1]
            simp [hidmem]
          obtain ⟨vs₁, hv₁, hm₁, hn₁⟩ := ih.2 sc e _ _ st1 st' hwf1 hcn1 h
          rw [hkeys1] at hm₁ hn₁
          refine ⟨ep ++ vs₁, ?_, ?_, ?_⟩
          · rw [hv₁, hep, List.append_assoc]
          · rw [List.nodup_append]
            refine ⟨hepnd, ?_, ?_⟩
            · apply hn₁ (nodup_insertionSort _ hchildnd)
              intro c₁ hc₁ c₂ hc₂ hne x r₁ r₂
              exact reachK_sibling_disjoint
                (hpk c₁ ((mem_sort_ids _ _ c₁).mp hc₁))
                (hpk c₂ ((mem_sort_ids _ _ c₂).mp hc₂)) hne r₁ r₂
            · intro a ha hb
              have haid := hepid a ha
              rcases hm₁ a hb with ⟨c, hc, hr⟩
              have hpkc := hpk c ((mem_sort_ids _ _ c).mp hc)
              have h1 := reachK_length hr
              have h2 := parentKeyOf_length hpkc
              rw [haid] at h1
              omega
          · intro x hx
            rcases List.mem_append.mp hx with hx | hx
            · rw [hepid x hx]; exact ReachK.refl id
            · rcases hm₁ x hx with ⟨c, hc, hr⟩
              have hpkc := hpk c ((mem_sort_ids _ _ c).mp hc)
              exact reachK_trans hr (ReachK.step hpkc (ReachK.refl id))
        · simp only [Option.some.injEq] at h
          refine ⟨ep, by rw [← h, hep], hepnd, ?_⟩
          intro x hx
          rw [hepid x hx]
          exact ReachK.refl id
      · simp only [Option.some.injEq] at h
        refine ⟨ep, by rw [← h, hep], hepnd, ?_⟩
        intro x hx
        rw [hepid x hx]
        exact ReachK.refl id
    refine ⟨hnode, ?_⟩
    intro sc e ids
    induction ids with
    | nil =>
      intro d st st' _ _ h
      rw [walk_id_list_nil] at h
      simp only [Option.some.injEq] at h
      exact ⟨[], by simp [← h], by simp, by simp⟩
    | cons c cs ihl =>
      intro d st st' hwf hcn h
      rw [walk_id_list_cons] at h
      cases hm : add_visible_recursive_id sc e (f + 1) c d st with
      | none => rw [hm] at h; exact absurd h (by simp)
      | some stm =>
        rw [hm] at h
        obtain ⟨vsc, hvc, hndc, hrc⟩ := hnode sc e c d st stm hwf hcn hm
        have hshape := (walk_id_shape (f + 1)).1 _ _ _ _ _ _ hm
        have hkeysm : keysOf stm.nodes = keysOf st.nodes := keys_eq_of_strip_eq hshape.1
        obtain ⟨vscs, hvcs, hmcs, hndcs⟩ := ihl d stm st'
          (IdWF_of_strip_eq hshape.1.symm hwf)
          (childNodupWF_of_strip_eq hshape.1.symm hcn) h
        rw [hkeysm] at hmcs hndcs
        refine ⟨vsc ++ vscs, ?_, ?_, ?_⟩
        · rw [hvcs, hvc, List.append_assoc]
        · intro x hx
          rcases List.mem_append.mp hx with hx | hx
          · exact ⟨c, by simp, hrc x hx⟩
          · rcases hmcs x hx with ⟨c', hc', hr⟩
            exact ⟨c', by simp [hc'], hr⟩
        · intro hnd hcones
          rw [List.nodup_append]
          rcases List.nodup_cons.mp hnd with ⟨hcnotin, hndcs'⟩
          refine ⟨hndc, hndcs hndcs' (conesDisjoint_of_cons hcones), ?_⟩
          intro a ha hb
          rcases hmcs a hb with ⟨c', hc', hr'⟩
          have hne : c ≠ c' := fun he => hcnotin (he ▸ hc')
          exact hcones c (by simp) c' (by simp [hc']) hne a (hrc a ha) hr'

theorem keysOf_insertNode (m : List (String × TreeNode)) (k : String) (v : TreeNode) :
    keysOf (insertNode m k v) =
      if containsKey m k = true then keysOf m else keysOf m ++ [k] := by
  unfold insertNode containsKey keysOf
  split
  · rw [List.map_map]
    apply List.map_congr_left
    intro p _
    by_cases h : p.1 = k
    · simp [h]
    · simp [h]
  · simp

theorem mem_keys_foldl_insert (issues : List Issue) :
    ∀ (m : List (String × TreeNode)) (x : String),
      x ∈ keysOf (issues.foldl (fun m i =>
        insertNode m i.id
          { issue := i, children := [], dep_children := [], depth := 0 }) m) ↔
      x ∈ keysOf m ∨ x ∈ issues.map (fun i => i.id) := by
  induction issues with
  | nil => intro m x; simp
  | cons i is ih =>
    intro m x
    rw [List.foldl_cons, ih, keysOf_insertNode]
    simp only [List.map_cons, List.mem_cons]
    by_cases hc : containsKey m i.id = true
    · rw [if_pos hc]
      constructor
      · rintro (h | h)
        · exact Or.inl h
        · exact Or.inr (Or.inr h)
      · rintro (h | h | h)
        · exact Or.inl h
        · left
          rw [h]
          exact (containsKey_iff_mem_keys m i.id).mp hc
        · exact Or.inr h
    · rw [if_neg hc]
      constructor
      · rintro (h | h)
        · rcases List.mem_append.mp h with h | h
          · exact Or.inl h
          · exact Or.inr (Or.inl (by simpa using h))
        · exact Or.inr (Or.inr h)
      · rintro (h | h | h)
        · exact Or.inl (List.mem_append.mpr (Or.inl h))
        · exact Or.inl (List.mem_append.mpr (Or.inr (by simp [h])))
        · exact Or.inr h

theorem mem_keys_initialNodes (issues : List Issue) (x : String) :
    x ∈ keysOf (initialNodes issues) ↔ x ∈ issues.map (fun i => i.id) := by
  unfold initialNodes
  rw [mem_keys_foldl_insert]
  simp [keysOf]

theorem nodup_keys_foldl_insert (issues : List Issue) :
    ∀ (m : List (String × TreeNode)), (keysOf m).Nodup →
      (keysOf (issues.foldl (fun m i =>
        insertNode m i.id
          { issue := i, children := [], dep_children := [], depth := 0 }) m)).Nodup := by
  induction issues with
  | nil => intro m h; simpa
  | cons i is ih =>
    intro m h
    rw [List.foldl_cons]
    apply ih
    rw [keysOf_insertNode]
    split
    · exact h
    · rename_i hc
      rw [List.nodup_append]
      refine ⟨h, by simp, ?_⟩
      intro a ha hb
      simp only [List.mem_singleton] at hb
      rw [hb] at ha
      exact absurd ((containsKey_iff_mem_keys m i.id).mpr ha) (by simpa using hc)

theorem nodup_keys_initialNodes (issues : List Issue) :
    (keysOf (initialNodes issues)).Nodup := by
  unfold initialNodes
  exact nodup_keys_foldl_insert issues [] (by simp [keysOf])

theorem keys_populatedNodes (issues : List Issue) :
    keysOf (populatedNodes issues) = keysOf (initialNodes issues) := by
  unfold populatedNodes keysOf
  rw [List.map_map]
  rfl

theorem mem_populatedNodes {issues : List Issue} {p : String × TreeNode}
    (h : p ∈ populatedNodes issues) :
    p.2.children = id_children_of issues p.1 ∧
    p.2.dep_children = dep_children_of issues p.1 := by
  unfold populatedNodes at h
  rcases List.mem_map.mp h with ⟨q, _, he⟩
  rw [← he]
  exact ⟨rfl, rfl⟩

theorem mem_id_children_of {issues : List Issue} {parent_id c : String}
    (h : c ∈ id_children_of issues parent_id) :
    parent_from_dotted_id c = some parent_id ∧ c ∈ issues.map (fun i => i.id) := by
  unfold id_children_of at h
  rcases List.mem_map.mp h with ⟨i, hi, he⟩
  rcases List.mem_filter.mp hi with ⟨hmem, hfilt⟩
  have hp : parent_from_dotted_id i.id = some parent_id := by simpa using hfilt
  rw [← he]
  exact ⟨hp, List.mem_map.mpr ⟨i, hmem, rfl⟩⟩

theorem idWF_populatedNodes (issues : List Issue) : IdWF (populatedNodes issues) := by
  intro p hp c hc
  rw [(mem_populatedNodes hp).1] at hc
  have h := mem_id_children_of hc
  refine ⟨h.1, ?_⟩
  rw [containsKey_iff_mem_keys, keys_populatedNodes, mem_keys_initialNodes]
  exact h.2

theorem childNodupWF_populatedNodes {issues : List Issue}
    (hids : (issues.map (fun i => i.id)).Nodup) :
    ChildNodupWF (populatedNodes issues) := by
  intro p hp
  rw [(mem_populatedNodes hp).1]
  unfold id_children_of
  have hsub : ((issues.filter (fun i =>
      parent_from_dotted_id i.id == some p.1)).map (fun i => i.id)).Sublist
      (issues.map (fun i => i.id)) :=
    List.Sublist.map _ (List.filter_sublist issues)
  exact hids.sublist hsub

theorem initial_tree_roots_wf (issues : List Issue)
    (e de rdy : List String) (mode : HierarchyMode) :
    (initial_tree issues e de rdy mode).root_ids.Nodup ∧
    ∀ r ∈ (initial_tree issues e de rdy mode).root_ids,
      parentKeyOf (keysOf (initial_tree issues e de rdy mode).nodes) r = none := by
  constructor
  · apply nodup_insertionSort
    apply List.Nodup.filter
    rw [keys_populatedNodes]
    exact nodup_keys_initialNodes issues
  · intro r hr
    have hr' : r ∈ (keysOf (populatedNodes issues)).filter
        (fun id => is_id_root (populatedNodes issues) id) := by
      exact (mem_sort_ids _ _ r).mp hr
    rcases List.mem_filter.mp hr' with ⟨_, hroot⟩
    unfold is_id_root at hroot
    unfold parentKeyOf
    cases hp : parent_from_dotted_id r with
    | none => rfl
    | some q =>
      rw [hp] at hroot
      have hq : containsKey (populatedNodes issues) q = false := by
        simpa using hroot
      have hk : keysOf (initial_tree issues e de rdy mode).nodes =
          keysOf (populatedNodes issues) := rfl
      have hq' : q ∉ keysOf (populatedNodes issues) := by
        intro hmem
        rw [(containsKey_iff_mem_keys _ _).mpr hmem] at hq
        exact absurd hq (by simp)
      simp [hk, hq']

theorem initial_tree_TreeWF {issues : List Issue}
    (hids : (issues.map (fun i => i.id)).Nodup)
    (e de rdy : List String) (mode : HierarchyMode) :
    TreeWF (initial_tree issues e de rdy mode) := by
  refine ⟨idWF_populatedNodes issues, childNodupWF_populatedNodes hids, ?_, ?_⟩
  · exact (initial_tree_roots_wf issues e de rdy mode).1
  · exact (initial_tree_roots_wf issues e de rdy mode).2

theorem rebuild_strip_const {t t' : IssueTree} (h : rebuild_visible t = some t') :
    strip_depths t'.nodes = strip_depths t.nodes ∧
    t'.root_ids = t.root_ids ∧ t'.dep_root_ids = t.dep_root_ids ∧
    t'.expanded = t.expanded ∧ t'.dep_expanded = t.dep_expanded ∧
    t'.show_closed = t.show_closed ∧ t'.hierarchy_mode = t.hierarchy_mode ∧
    t'.multi_parent_ids = t.multi_parent_ids ∧ t'.ready_ids = t.ready_ids := by
  rw [rebuild_visible_eq] at h
  cases hw : rebuild_walk t with
  | none => rw [hw] at h; exact absurd h (by simp)
  | some st =>
    rw [hw] at h
    simp only [Option.map_some', Option.some.injEq] at h
    have hshape : WalkShape { nodes := t.nodes, visible_items := [], added := [] } st := by
      unfold rebuild_walk at hw
      cases hm : t.hierarchy_mode <;> rw [hm] at hw
      · exact (walk_id_shape (t.nodes.length + 1)).2 _ _ _ _ _ _ hw
      · exact (walk_dep_shape (t.nodes.length + 1)).2 _ _ _ _ _ _ _ hw
    rw [← h]
    exact ⟨hshape.1, rfl, rfl, rfl, rfl, rfl, rfl, rfl, rfl⟩

theorem rebuild_preserves_TreeWF {t t' : IssueTree} (h : rebuild_visible t = some t')
    (hwf : TreeWF t) : TreeWF t' := by
  obtain ⟨hn, hr, _, _, _, _, _, _, _⟩ := rebuild_strip_const h
  refine ⟨IdWF_of_strip_eq hn.symm hwf.1, childNodupWF_of_strip_eq hn.symm hwf.2.1, ?_, ?_⟩
  · rw [hr]; exact hwf.2.2.1
  · rw [hr, keys_eq_of_strip_eq hn]
    exact hwf.2.2.2

/-- Any rebuild of a well-formed tree produces a duplicate-free visible
list, in both hierarchy modes. -/
theorem rebuild_visible_nodup {t t' : IssueTree} (h : rebuild_visible t = some t')
    (hwf : t.hierarchy_mode = HierarchyMode.IdBased → TreeWF t) :
    t'.visible_items.Nodup := by
  rw [rebuild_visible_eq] at h
  cases hw : rebuild_walk t with
  | none => rw [hw] at h; exact absurd h (by simp)
  | some st =>
    rw [hw] at h
    simp only [Option.map_some', Option.some.injEq] at h
    have hvis : t'.visible_items = st.visible_items := by rw [← h]
    rw [hvis]
    unfold rebuild_walk at hw
    cases hm : t.hierarchy_mode <;> rw [hm] at hw
    · obtain ⟨hwfid, hcn, hrnd, hrpar⟩ := hwf hm
      obtain ⟨vs, hv, _, hnd⟩ := (walk_id_emit (t.nodes.length + 1)).2
        t.show_closed t.expanded t.root_ids 0 _ st hwfid hcn hw
      simp only [List.nil_append] at hv
      rw [hv]
      apply hnd hrnd
      intro c₁ h₁ c₂ h₂ hne x r₁ r₂
      exact reachK_root_disjoint (hrpar c₁ h₁) (hrpar c₂ h₂) hne r₁ r₂
    · have := (walk_dep_nodup (t.nodes.length + 1)).2 _ _ _ _ _ _ _ hw
        ⟨by simp, by simp⟩
      exact this.1

theorem rebuild_cursorInv {t t' : IssueTree} (h : rebuild_visible t = some t') :
    CursorInv t' := by
  rw [rebuild_visible_eq] at h
  cases hw : rebuild_walk t with
  | none => rw [hw] at h; exact absurd h (by simp)
  | some st =>
    rw [hw] at h
    simp only [Option.map_some', Option.some.injEq] at h
    intro hne
    rw [← h] at hne ⊢
    simp only at hne ⊢
    have hlen : 0 < st.visible_items.length := by
      cases hv : st.visible_items with
      | nil => rw [hv] at hne; exact absurd rfl hne
      | cons a l => simp
    by_cases hc : st.visible_items.length ≤ t.cursor
    · have hemp : st.visible_items.isEmpty = false := by
        cases hv : st.visible_items with
        | nil => rw [hv] at hlen; simp at hlen
        | cons a l => rfl
      rw [if_pos (by simp [hc, hemp])]
      omega
    · rw [if_neg (by simp [hc])]
      omega

theorem cursorInv_move_up {t : IssueTree} (h : CursorInv t) : CursorInv (move_up t) := by
  unfold move_up
  split
  · intro hne
    simp only at hne ⊢
    have := h hne
    omega
  · exact h

theorem cursorInv_move_down {t : IssueTree} (h : CursorInv t) : CursorInv (move_down t) := by
  unfold move_down
  split
  · intro hne
    simp only at hne ⊢
    omega
  · exact h

theorem cursorInv_move_to_top (t : IssueTree) : CursorInv (move_to_top t) := by
  unfold move_to_top
  intro hne
  simp only at hne ⊢
  cases hv : t.visible_items with
  | nil => rw [hv] at hne; exact absurd rfl hne
  | cons a l => simp

theorem cursorInv_move_to_bottom {t : IssueTree} (h : CursorInv t) :
    CursorInv (move_to_bottom t) := by
  unfold move_to_bottom
  split
  · rename_i hne
    intro hne'
    simp only at hne' ⊢
    have : 0 < t.visible_items.length := by
      cases hv : t.visible_items with
      | nil => rw [hv] at hne; simp at hne
      | cons a l => simp
    omega
  · exact h

theorem cursorInv_toggle_show_closed {t t' : IssueTree}
    (h : toggle_show_closed t = some t') : CursorInv t' :=
  rebuild_cursorInv h

theorem cursorInv_set_hierarchy_mode {t t' : IssueTree} {mode : HierarchyMode}
    (h : set_hierarchy_mode t mode = some t') : CursorInv t' :=
  rebuild_cursorInv h

theorem cursorInv_toggle_expand_all {t t' : IssueTree}
    (h : toggle_expand_all t = some t') : CursorInv t' := by
  unfold toggle_expand_all at h
  simp only at h
  split at h
  · exact rebuild_cursorInv h
  · exact rebuild_cursorInv h

theorem cursorInv_expand {t t' : IssueTree} (hinv : CursorInv t)
    (h : expand t = some t') : CursorInv t' := by
  unfold expand at h
  simp only at h
  split at h
  · simp only [Option.some.injEq] at h; rw [← h]; exact hinv
  · split at h
    · split at h
      · exact rebuild_cursorInv h
      · simp only [Option.some.injEq] at h; rw [← h]; exact hinv
    · simp only [Option.some.injEq] at h; rw [← h]; exact hinv

theorem cursorInv_toggle_expand {t t' : IssueTree} (hinv : CursorInv t)
    (h : toggle_expand t = some t') : CursorInv t' := by
  unfold toggle_expand at h
  simp only at h
  split at h
  · simp only [Option.some.injEq] at h; rw [← h]; exact hinv
  · split at h
    · split at h
      · exact rebuild_cursorInv h
      · exact rebuild_cursorInv h
    · simp only [Option.some.injEq] at h; rw [← h]; exact hinv

theorem cursorInv_collapse {t t' : IssueTree} (hinv : CursorInv t)
    (h : collapse t = some t') : CursorInv t' := by
  unfold collapse at h
  simp only at h
  split at h
  · simp only [Option.some.injEq] at h; rw [← h]; exact hinv
  · split at h
    · exact rebuild_cursorInv h
    · simp only [Option.some.injEq] at h
      rw [← h]
      split
      · rename_i pid
        split
        · rename_i pos hfind
          intro hne
          simp only at hne ⊢
          exact (List.findIdx?_eq_some_iff_findIdx_eq.mp hfind).1
        · exact hinv
      · exact hinv

theorem eraseSet_contains (s : List String) (x y : String) :
    (eraseSet s x).contains y = if y = x then false else s.contains y := by
  unfold eraseSet
  by_cases hyx : y = x
  · rw [if_pos hyx]
    subst hyx
    have h : y ∉ s.filter (fun z => !(z == y)) := by
      intro hmem
      rcases List.mem_filter.mp hmem with ⟨_, hz⟩
      simp at hz
    simpa using h
  · rw [if_neg hyx]
    by_cases hm : y ∈ s
    · have h : y ∈ s.filter (fun z => !(z == x)) :=
        List.mem_filter.mpr ⟨hm, by simp [hyx]⟩
      simp [h, hm]
    · have h : y ∉ s.filter (fun z => !(z == x)) :=
        fun hmem => hm (List.mem_filter.mp hmem).1
      simp [h, hm]

theorem contains_append (l₁ l₂ : List String) (x : String) :
    (l₁ ++ l₂).contains x = (l₁.contains x || l₂.contains x) := by
  by_cases h1 : x ∈ l₁
  · have : x ∈ l₁ ++ l₂ := List.mem_append.mpr (Or.inl h1)
    simp [h1, this]
  · by_cases h2 : x ∈ l₂
    · have : x ∈ l₁ ++ l₂ := List.mem_append.mpr (Or.inr h2)
      simp [h1, h2, this]
    · have : x ∉ l₁ ++ l₂ := fun hm => (List.mem_append.mp hm).elim h1 h2
      simp [h1, h2, this]

theorem get?_append_length (pre : List String) (a : String) (s : List String) :
    (pre ++ a :: s).get? pre.length = some a := by
  induction pre with
  | nil => rfl
  | cons x xs ih => simpa using ih

theorem index_of_unique {l pre s : List String} {a : String} {i : Nat}
    (hnd : l.Nodup) (hsplit : l = pre ++ a :: s) (hget : l.get? i = some a) :
    i = pre.length := by
  subst hsplit
  have hnotpre : a ∉ pre := by
    rw [List.nodup_append] at hnd
    intro hmem
    exact hnd.2.2 hmem (by simp)
  have hnots : a ∉ s := by
    rw [List.nodup_append] at hnd
    rcases List.nodup_cons.mp hnd.2.1 with ⟨h, _⟩
    exact h
  rcases Nat.lt_trichotomy i pre.length with hlt | heq | hgt
  · exfalso
    apply hnotpre
    have : (pre ++ a :: s).get? i = pre.get? i := by
      rw [List.get?_append hlt]
    rw [this] at hget
    exact List.get?_mem hget
  · exact heq
  · exfalso
    apply hnots
    have h1 : (pre ++ a :: s).get? i = (a :: s).get? (i - pre.length) := by
      rw [List.get?_append_right (by omega)]
    rw [h1] at hget
    have h2 : 0 < i - pre.length := by omega
    cases hk : i - pre.length with
    | zero => omega
    | succ k =>
      rw [hk] at hget
      simp only [List.get?_cons_succ] at hget
      exact List.get?_mem hget

/-- C1, counterexample: at a non-hidden node whose id is already in the
emitted set, the dependency walk returns the state unchanged, which differs
from what the normal traversal rule prescribes there (descending into the
children of this expanded node, which would emit `c`).  So the walk does not
"still apply the normal traversal rule at that node": it abandons the
subtree. -/
theorem c1_counterexample :
    add_visible_recursive_dep true ["m"] (4 + 1) "m" 0 [] c1_state = some c1_state ∧
    add_visible_recursive_dep true ["m"] (4 + 1) "m" 0 [] c1_state ≠
      walk_dep_list true ["m"] 4 (sort_ids c1_state.nodes c1_node_m.dep_children)
        (0 + 1) ("m" :: []) c1_state := by
  constructor
  · decide
  · decide

/-- C1 (amended): in dependency mode, when the walk reaches a node that is
not on the current path, is not hidden, and whose id is already in the
emitted set of this walk, it returns immediately with the state unchanged:
emission is skipped and the subtree is not traversed.  (No output is lost:
a node enters the emitted set only at its first visit, where the normal
traversal rule was applied.) -/
theorem c1_dedup_skips_subtree :
    ∀ (sc : Bool) (e : List String) (fuel : Nat) (id : String) (d : Nat)
      (vis : List String) (st : WalkSt),
      vis.contains id = false →
      (sc || !is_closed_in st.nodes id) = true →
      st.added.contains id = true →
      add_visible_recursive_dep sc e (fuel + 1) id d vis st = some st := by
  intro sc e fuel id d vis st hv hemit hadd
  rw [add_visible_recursive_dep]
  simp only
  rw [hv, hemit, hadd]
  simp

/-- Witness for C1's amended theorem at the concrete state. -/
theorem c1_dedup_skips_subtree_witness :
    add_visible_recursive_dep true ["m"] (4 + 1) "m" 0 [] c1_state = some c1_state :=
  c1_dedup_skips_subtree true ["m"] 4 "m" 0 [] c1_state (by decide) (by decide)
    (by decide)

/-- C3: `rebuild_visible` terminates for every snapshot and fold state —
`from_issues` (whose final step is a rebuild) always returns a tree, and on
that tree every further rebuild under any fold state, closed-filter flag,
mode and cursor returns a result (the fuelled walks never run out of fuel,
including on cyclic dependency graphs). -/
theorem c3_rebuild_visible_terminates :
    ∀ (issues : List Issue) (e de rdy : List String) (mode : HierarchyMode),
      ∃ t, from_issues issues e de rdy mode = some t ∧
        ∀ (e' de' : List String) (sc' : Bool) (mode' : HierarchyMode) (c' : Nat),
          (rebuild_visible { t with expanded := e', dep_expanded := de',
                                    show_closed := sc', hierarchy_mode := mode',
                                    cursor := c' }).isSome = true := by
  intro issues e de rdy mode
  have hwf0 : IdWF (initial_tree issues e de rdy mode).nodes :=
    idWF_populatedNodes issues
  have h1 : (from_issues issues e de rdy mode).isSome :=
    rebuild_visible_isSome (fun _ => hwf0)
  rcases Option.isSome_iff_exists.mp h1 with ⟨t, ht⟩
  refine ⟨t, ht, ?_⟩
  intro e' de' sc' mode' c'
  have hstrip := (rebuild_strip_const ht).1
  have hwf : IdWF t.nodes := IdWF_of_strip_eq hstrip.symm hwf0
  exact rebuild_visible_isSome (fun _ => hwf)

theorem from_issues_cursor_zero {issues : List Issue} {e de rdy : List String}
    {mode : HierarchyMode} {t : IssueTree}
    (h : from_issues issues e de rdy mode = some t) : t.cursor = 0 := by
  unfold from_issues at h
  rw [rebuild_visible_eq] at h
  cases hw : rebuild_walk (initial_tree issues e de rdy mode) with
  | none => rw [hw] at h; exact absurd h (by simp)
  | some st =>
    rw [hw] at h
    simp only [Option.map_some', Option.some.injEq] at h
    rw [← h]
    simp only
    have hc0 : (initial_tree issues e de rdy mode).cursor = 0 := rfl
    cases hv : st.visible_items with
    | nil => simp [hc0]
    | cons a l => simp [hc0]

/-- C4 (amended): after construction the cursor is `0`, and after every
operation the cursor is a valid index whenever the visible list is
non-empty.  When a recomputation empties the list, however, the cursor
keeps its previous value rather than being reset to `0` (see the
counterexample). -/
theorem c4_cursor_in_range :
    (∀ (issues : List Issue) (e de rdy : List String) (mode : HierarchyMode)
      (t : IssueTree), from_issues issues e de rdy mode = some t →
        t.cursor = 0 ∧ CursorInv t) ∧
    (∀ t, CursorInv t → CursorInv (move_up t)) ∧
    (∀ t, CursorInv t → CursorInv (move_down t)) ∧
    (∀ t, CursorInv (move_to_top t)) ∧
    (∀ t, CursorInv t → CursorInv (move_to_bottom t)) ∧
    (∀ t t', CursorInv t → toggle_expand t = some t' → CursorInv t') ∧
    (∀ t t', CursorInv t → expand t = some t' → CursorInv t') ∧
    (∀ t t', CursorInv t → collapse t = some t' → CursorInv t') ∧
    (∀ t t', toggle_expand_all t = some t' → CursorInv t') ∧
    (∀ t t', toggle_show_closed t = some t' → CursorInv t') ∧
    (∀ t t' mode, set_hierarchy_mode t mode = some t' → CursorInv t') := by
  refine ⟨?_, ?_, ?_, ?_, ?_, ?_, ?_, ?_, ?_, ?_, ?_⟩
  · intro issues e de rdy mode t h
    exact ⟨from_issues_cursor_zero h, rebuild_cursorInv h⟩
  · exact fun t h => cursorInv_move_up h
  · exact fun t h => cursorInv_move_down h
  · exact cursorInv_move_to_top
  · exact fun t h => cursorInv_move_to_bottom h
  · exact fun t t' h hop => cursorInv_toggle_expand h hop
  · exact fun t t' h hop => cursorInv_expand h hop
  · exact fun t t' h hop => cursorInv_collapse h hop
  · exact fun t t' hop => cursorInv_toggle_expand_all hop
  · exact fun t t' hop => cursorInv_toggle_show_closed hop
  · exact fun t t' mode hop => cursorInv_set_hierarchy_mode hop

/-- C4, counterexample: two closed issues, cursor moved to index 1, then
`toggle_show_closed` empties the visible list — the cursor stays at `1`,
not `0` as the claim states for an empty list. -/
theorem c4_counterexample :
    (((from_issues [mk_issue "a" "A" 1 "closed", mk_issue "b" "B" 1 "closed"]
        [] [] [] HierarchyMode.IdBased).map move_down).bind
      toggle_show_closed).map (fun t => (t.visible_items, t.cursor)) =
      some ([], 1) := by
  decide

/-- C5, counterexample: `z` has only one surviving blocking dependency
(`ghost` is absent from the snapshot), yet the code records `z` in
`multi_parent_ids` — the count is taken before the presence filter. -/
theorem c5_counterexample :
    (from_issues [c5_issue_p, c5_issue_z] [] [] []
        HierarchyMode.DependencyBased).map
      (fun t => (t.multi_parent_ids.contains "z",
        (surviving_blocking_deps t.nodes c5_issue_z).length)) =
      some (true, 1) := by
  decide

/-- C5 (amended): `multi_parent_ids` contains exactly the ids of issues
with more than one non-`"related"` dependency, whether or not the targets
exist in the snapshot. -/
theorem c5_multi_parent_ids :
    ∀ (issues : List Issue) (e de rdy : List String) (mode : HierarchyMode)
      (t : IssueTree), from_issues issues e de rdy mode = some t →
      ∀ x, x ∈ t.multi_parent_ids ↔
        ∃ i ∈ issues, i.id = x ∧ 1 < (blocking_deps i).length := by
  intro issues e de rdy mode t h x
  unfold from_issues at h
  have hmp := (rebuild_strip_const h).2.2.2.2.2.2.2.1
  rw [hmp]
  show x ∈ (issues.filter (fun i => 1 < (blocking_deps i).length)).map
    (fun i => i.id) ↔ _
  rw [List.mem_map]
  constructor
  · rintro ⟨i, hi, he⟩
    rcases List.mem_filter.mp hi with ⟨hmem, hlen⟩
    exact ⟨i, hmem, he, by simpa using hlen⟩
  · rintro ⟨i, hmem, he, hlen⟩
    exact ⟨i, List.mem_filter.mpr ⟨hmem, by simpa using hlen⟩, he⟩

/-- Witness for C5's amended theorem at the counterexample snapshot. -/
theorem c5_multi_parent_ids_witness :
    (match from_issues [c5_issue_p, c5_issue_z] [] [] []
        HierarchyMode.DependencyBased with
     | some t => "z" ∈ t.multi_parent_ids ↔
         ∃ i ∈ [c5_issue_p, c5_issue_z], i.id = "z" ∧ 1 < (blocking_deps i).length
     | none => False) := by
  cases hfi : from_issues [c5_issue_p, c5_issue_z] [] [] []
      HierarchyMode.DependencyBased with
  | none => exact absurd hfi (by decide)
  | some t =>
    exact c5_multi_parent_ids [c5_issue_p, c5_issue_z] [] [] []
      HierarchyMode.DependencyBased t hfi "z"

/-- C8: both root lists are sorted by priority then title; every children
list is sorted by the same comparator at traversal time (`sort_ids` runs on
each children list before it is walked); and the flat three-issue scenario
produces `[b, a, c]`, all at depth 0. -/
theorem c8_visible_order :
    (∀ (issues : List Issue) (e de rdy : List String) (mode : HierarchyMode)
      (t : IssueTree), from_issues issues e de rdy mode = some t →
        t.root_ids.Pairwise (fun a b => node_le t.nodes a b = true) ∧
        t.dep_root_ids.Pairwise (fun a b => node_le t.nodes a b = true)) ∧
    (∀ (m : List (String × TreeNode)) (l : List String),
      (∀ x ∈ l, containsKey m x = true) →
      (sort_ids m l).Pairwise (fun a b => node_le m a b = true)) ∧
    (from_issues [mk_issue "a" "A" 2 "open", mk_issue "b" "B" 1 "open",
        mk_issue "c" "C" 2 "open"] [] [] [] HierarchyMode.IdBased).map
      (fun t => (t.visible_items, (lookupNode t.nodes "a").map TreeNode.depth,
        (lookupNode t.nodes "b").map TreeNode.depth,
        (lookupNode t.nodes "c").map TreeNode.depth)) =
      some (["b", "a", "c"], some 0, some 0, some 0) := by
  refine ⟨?_, ?_, by decide⟩
  · intro issues e de rdy mode t h
    unfold from_issues at h
    obtain ⟨hn, hr, hdr, _⟩ := rebuild_strip_const h
    have hcongr : ∀ a b, node_le (initial_tree issues e de rdy mode).nodes a b =
        node_le t.nodes a b := fun a b => node_le_congr hn.symm a b
    constructor
    · rw [hr]
      have hp : (initial_tree issues e de rdy mode).root_ids.Pairwise
          (fun a b => node_le (initial_tree issues e de rdy mode).nodes a b = true) := by
        apply sort_ids_pairwise_keys
        intro x hx
        rcases List.mem_filter.mp hx with ⟨hmem, _⟩
        exact (containsKey_iff_mem_keys _ _).mpr hmem
      exact hp.imp (fun hab => by rw [← hcongr _ _]; exact hab)
    · rw [hdr]
      have hp : (initial_tree issues e de rdy mode).dep_root_ids.Pairwise
          (fun a b => node_le (initial_tree issues e de rdy mode).nodes a b = true) := by
        apply sort_ids_pairwise_keys
        intro x hx
        rcases List.mem_filter.mp hx with ⟨hmem, _⟩
        exact (containsKey_iff_mem_keys _ _).mpr hmem
      exact hp.imp (fun hab => by rw [← hcongr _ _]; exact hab)
  · exact fun m l h => sort_ids_pairwise_keys m l h

/-- A tree produced by a rebuild is in sync with its own recomputation:
rebuilding again yields the same visible list. -/
theorem rebuild_insync {t₀ t : IssueTree} (h : rebuild_visible t₀ = some t)
    (hwf : t₀.hierarchy_mode = HierarchyMode.IdBased → IdWF t₀.nodes) :
    InSync t := by
  obtain ⟨hn, hr, hdr, he, hde, hsc, hm, -, -⟩ := rebuild_strip_const h
  have hrel : OptStRel (rebuild_walk t) (rebuild_walk t₀) := by
    apply rebuild_walk_congr hn hr hdr hsc hm
    · intro y; rw [he]
    · intro y; rw [hde]
  have hwft : t.hierarchy_mode = HierarchyMode.IdBased → IdWF t.nodes := by
    intro hmm; exact IdWF_of_strip_eq hn.symm (hwf (hm ▸ hmm))
  unfold InSync
  rw [rebuild_visible_eq]
  cases hw : rebuild_walk t with
  | none =>
    have hs := rebuild_walk_isSome hwft
    rw [hw] at hs; simp at hs
  | some st =>
    rw [rebuild_visible_eq] at h
    cases hw0 : rebuild_walk t₀ with
    | none => rw [hw0] at h; exact absurd h (by simp)
    | some st0 =>
      rw [hw0] at h
      simp only [Option.map_some', Option.some.injEq] at h
      rw [hw, hw0] at hrel
      simp only [Option.map_some', Option.some.injEq]
      rw [hrel.2.1, ← h]

/-- C2: for every snapshot with distinct issue ids, every fold state, closed
filter and hierarchy mode, a single recomputation produces a visible list in
which each node id occurs at most once — both the recomputation done by
`from_issues` and any later rebuild under modified fold state, filter flag,
mode and cursor. -/
theorem c2_single_appearance :
    ∀ (issues : List Issue) (e de rdy : List String) (mode : HierarchyMode)
      (t : IssueTree),
      (issues.map (fun i => i.id)).Nodup →
      from_issues issues e de rdy mode = some t →
      t.visible_items.Nodup ∧
      ∀ (e' de' : List String) (sc' : Bool) (mode' : HierarchyMode) (c' : Nat)
        (t' : IssueTree),
        rebuild_visible { t with expanded := e', dep_expanded := de',
                                 show_closed := sc', hierarchy_mode := mode',
                                 cursor := c' } = some t' →
        t'.visible_items.Nodup := by
  intro issues e de rdy mode t hids h
  have hwf0 : TreeWF (initial_tree issues e de rdy mode) :=
    initial_tree_TreeWF hids e de rdy mode
  constructor
  · exact rebuild_visible_nodup h (fun _ => hwf0)
  · intro e' de' sc' mode' c' t' h'
    have hwft : TreeWF t := rebuild_preserves_TreeWF h hwf0
    exact rebuild_visible_nodup h'
      (fun _ => ⟨hwft.1, hwft.2.1, hwft.2.2.1, hwft.2.2.2⟩)

theorem c2_single_appearance_witness :
    (match from_issues c2_issues [] ["a", "b", "c"] [] HierarchyMode.DependencyBased with
     | some t => t.visible_items.Nodup
     | none => False) := by
  cases hfi : from_issues c2_issues [] ["a", "b", "c"] [] HierarchyMode.DependencyBased with
  | none => exact absurd hfi (by decide)
  | some t =>
    exact (c2_single_appearance c2_issues [] ["a", "b", "c"] []
      HierarchyMode.DependencyBased t (by decide) hfi).1

/-- C10: toggling the closed-issue filter twice, with no other operation in
between, restores the flag and yields a visible list identical in content
and order to the original, in both hierarchy modes. -/
theorem c10_toggle_show_closed_twice (t : IssueTree)
    (hwf : t.hierarchy_mode = HierarchyMode.IdBased → IdWF t.nodes)
    (hsync : InSync t) :
    ∃ t₁ t₂, toggle_show_closed t = some t₁ ∧ toggle_show_closed t₁ = some t₂ ∧
      t₂.show_closed = t.show_closed ∧ t₂.visible_items = t.visible_items := by
  have h1s : (toggle_show_closed t).isSome := rebuild_visible_isSome hwf
  rcases Option.isSome_iff_exists.mp h1s with ⟨t₁, h1⟩
  have h1' : rebuild_visible { t with show_closed := !t.show_closed } = some t₁ := h1
  obtain ⟨hn1, hr1, hdr1, he1, hde1, hsc1, hm1, -, -⟩ := rebuild_strip_const h1'
  simp only at hn1 hr1 hdr1 he1 hde1 hsc1 hm1
  have hwf1 : t₁.hierarchy_mode = HierarchyMode.IdBased → IdWF t₁.nodes := by
    intro hm
    exact IdWF_of_strip_eq hn1.symm (hwf (hm1 ▸ hm))
  have h2s : (toggle_show_closed t₁).isSome := rebuild_visible_isSome hwf1
  rcases Option.isSome_iff_exists.mp h2s with ⟨t₂, h2⟩
  have h2' : rebuild_visible { t₁ with show_closed := !t₁.show_closed } = some t₂ := h2
  obtain ⟨hn2, -, -, -, -, hsc2, -, -, -⟩ := rebuild_strip_const h2'
  simp only at hn2 hsc2
  refine ⟨t₁, t₂, h1, h2, by rw [hsc2, hsc1, Bool.not_not], ?_⟩
  have hrel : OptStRel (rebuild_walk { t₁ with show_closed := !t₁.show_closed })
      (rebuild_walk t) := by
    apply rebuild_walk_congr
    · simpa using hn1
    · simpa using hr1
    · simpa using hdr1
    · simp [hsc1, Bool.not_not]
    · simpa using hm1
    · intro y; simp [he1]
    · intro y; simp [hde1]
  rw [rebuild_visible_eq] at h2'
  cases hw2 : rebuild_walk { t₁ with show_closed := !t₁.show_closed } with
  | none => rw [hw2] at h2'; exact absurd h2' (by simp)
  | some st₂ =>
    rw [hw2] at h2'
    simp only [Option.map_some', Option.some.injEq] at h2'
    unfold InSync at hsync
    rw [rebuild_visible_eq] at hsync
    cases hwt : rebuild_walk t with
    | none => rw [hwt] at hsync; exact absurd hsync (by simp)
    | some st =>
      rw [hwt] at hsync
      simp only [Option.map_some', Option.some.injEq] at hsync
      rw [hw2, hwt] at hrel
      have hvis2 : t₂.visible_items = st₂.visible_items := by rw [← h2']
      rw [hvis2, hrel.2.1]
      exact hsync

theorem c10_toggle_show_closed_twice_witness :
    (match from_issues [mk_issue "a" "A" 1 "open", mk_issue "b" "B" 1 "closed"]
        [] [] [] HierarchyMode.IdBased with
     | some t => ∃ t₁ t₂, toggle_show_closed t = some t₁ ∧
         toggle_show_closed t₁ = some t₂ ∧
         t₂.show_closed = t.show_closed ∧ t₂.visible_items = t.visible_items
     | none => False) := by
  cases hfi : from_issues [mk_issue "a" "A" 1 "open", mk_issue "b" "B" 1 "closed"]
      [] [] [] HierarchyMode.IdBased with
  | none => exact absurd hfi (by decide)
  | some t =>
    refine c10_toggle_show_closed_twice t ?_ ?_
    · intro hm
      have h : (match from_issues [mk_issue "a" "A" 1 "open", mk_issue "b" "B" 1 "closed"]
          [] [] [] HierarchyMode.IdBased with
        | some u => IdWF u.nodes
        | none => True) := by
        have hinit := idWF_populatedNodes [mk_issue "a" "A" 1 "open",
          mk_issue "b" "B" 1 "closed"]
        cases hfi2 : from_issues [mk_issue "a" "A" 1 "open", mk_issue "b" "B" 1 "closed"]
            [] [] [] HierarchyMode.IdBased with
        | none => trivial
        | some u =>
          have := (rebuild_strip_const hfi2).1
          exact IdWF_of_strip_eq this.symm hinit
      rw [hfi] at h
      exact h
    · exact rebuild_insync hfi (fun _ => idWF_populatedNodes _)

/-- What `collapse` does on a selected node that is not expanded in the
active mode: no rebuild, no fold-state change, cursor moved to the code's
structural parent when that parent occurs in the visible list. -/
theorem collapse_fallback_eq {t : IssueTree} {id : String}
    (hsel : selected_id t = some id)
    (hnexp : (current_expanded t).contains id = false) :
    collapse t = some (match collapse_parent t id with
      | some parent_id =>
        match t.visible_items.findIdx? (fun x => x == parent_id) with
        | some pos => { t with cursor := pos }
        | none => t
      | none => t) := by
  unfold collapse
  rw [hsel]
  simp only [hnexp]
  rw [if_neg (by simp)]

/-- C6, counterexample: with `z` selected (not expanded) in dependency
mode, the code takes the *first non-"related"* dependency `"ghost"` as the
structural parent without checking that it exists; `"ghost"` is not in the
visible list, so the cursor stays at `z`.  The spec's parent — the first
*surviving* blocking dependency — is `"p"`, which sits at index 0 of the
visible list, so under the spec's rule the cursor would move to 0. -/
theorem c6_counterexample :
    ((from_issues [c6_issue_p, c6_issue_z] [] ["p"] []
        HierarchyMode.DependencyBased).map move_down).map (fun t =>
      (selected_id t, (current_expanded t).contains "z",
       collapse_parent t "z", collapse_parent_spec t "z")) =
      some (some "z", false, some "ghost", some "p") ∧
    ((from_issues [c6_issue_p, c6_issue_z] [] ["p"] []
        HierarchyMode.DependencyBased).map move_down).map (fun t =>
      (t.visible_items.findIdx? (fun x => x == "p"),
       (collapse t).map (fun u => (u.cursor, u.visible_items)), t.cursor)) =
      some (some 0, some (1, ["p", "z"]), 1) :=
  ⟨by decide, by decide⟩

/-- C6 (amended): when `collapse` runs on a selected node that is not
expanded in the active mode, the fold state, node map and visible list are
untouched and no walk is re-run; the cursor moves to the structural parent
when that parent occurs in the visible list, where the structural parent is
the dotted-id parent in ID mode and, in dependency mode, the target of the
first dependency whose type is not `"related"` — with no check that this
target exists in the snapshot. -/
theorem c6_collapse_fallback :
    ∀ (t : IssueTree) (id : String),
      selected_id t = some id →
      (current_expanded t).contains id = false →
      ∃ t', collapse t = some t' ∧
        t'.expanded = t.expanded ∧ t'.dep_expanded = t.dep_expanded ∧
        t'.visible_items = t.visible_items ∧ t'.nodes = t.nodes ∧
        t'.show_closed = t.show_closed ∧ t'.hierarchy_mode = t.hierarchy_mode ∧
        t'.cursor = (match collapse_parent t id with
          | some pid =>
            match t.visible_items.findIdx? (fun x => x == pid) with
            | some pos => pos
            | none => t.cursor
          | none => t.cursor) ∧
        (t.hierarchy_mode = HierarchyMode.IdBased →
          collapse_parent t id = parent_from_dotted_id id) ∧
        (∀ node, t.hierarchy_mode = HierarchyMode.DependencyBased →
          lookupNode t.nodes id = some node →
          collapse_parent t id =
            ((node.issue.dependencies.getD []).find?
              (fun d => !(d.dependency_type == some "related"))).map
              (fun d => d.id)) := by
  intro t id hsel hnexp
  refine ⟨_, collapse_fallback_eq hsel hnexp, ?_⟩
  have hid : t.hierarchy_mode = HierarchyMode.IdBased →
      collapse_parent t id = parent_from_dotted_id id := by
    intro hm; unfold collapse_parent; rw [hm]
  have hdep : ∀ node, t.hierarchy_mode = HierarchyMode.DependencyBased →
      lookupNode t.nodes id = some node →
      collapse_parent t id =
        ((node.issue.dependencies.getD []).find?
          (fun d => !(d.dependency_type == some "related"))).map
          (fun d => d.id) := by
    intro node hm hlk
    unfold collapse_parent
    rw [hm, hlk]
    rfl
  cases hp : collapse_parent t id with
  | none =>
    exact ⟨rfl, rfl, rfl, rfl, rfl, rfl, rfl,
      fun hm => hp.symm.trans (hid hm),
      fun n hm hlk => hp.symm.trans (hdep n hm hlk)⟩
  | some pid =>
    refine ⟨?_, ?_, ?_, ?_, ?_, ?_, ?_,
      fun hm => hp.symm.trans (hid hm),
      fun n hm hlk => hp.symm.trans (hdep n hm hlk)⟩ <;>
      (cases hf : t.visible_items.findIdx? (fun x => x == pid) <;>
        simp only [hf])

theorem c6_collapse_fallback_witness :
    (match (from_issues [c6_issue_p, c6_issue_z] [] ["p"] []
        HierarchyMode.DependencyBased).map move_down with
     | some t => ∃ t', collapse t = some t' ∧
         t'.visible_items = t.visible_items ∧ t'.dep_expanded = t.dep_expanded
     | none => False) := by
  cases hfi : (from_issues [c6_issue_p, c6_issue_z] [] ["p"] []
      HierarchyMode.DependencyBased).map move_down with
  | none => exact absurd hfi (by decide)
  | some t =>
    have hsel : selected_id t = some "z" := by
      have h : ((from_issues [c6_issue_p, c6_issue_z] [] ["p"] []
          HierarchyMode.DependencyBased).map move_down).map selected_id =
          some (some "z") := by decide
      rw [hfi] at h
      simpa using h
    have hexp : (current_expanded t).contains "z" = false := by
      have h : ((from_issues [c6_issue_p, c6_issue_z] [] ["p"] []
          HierarchyMode.DependencyBased).map move_down).map
          (fun u => (current_expanded u).contains "z") = some false := by decide
      rw [hfi] at h
      simpa using h
    obtain ⟨t', h1, -, h2, h3, -⟩ := c6_collapse_fallback t "z" hsel hexp
    exact ⟨t', h1, h3, h2⟩

/-- C9: in both modes a hidden node (closed while the filter is off) is not
emitted but its children are traversed unconditionally at the hidden
parent's own depth, while the children of an emitted, traversed parent are
walked at the parent's depth plus one.  The four equations unfold one walk
step under the respective guard values; the final conjunct runs the flat
scenario (closed parent `a`, open dotted child `a.1`, filter off): only
`a.1` is visible and its stored depth is `0`, not `1`. -/
theorem c9_hidden_auto_traversal :
    (∀ (e : List String) (fuel : Nat) (id : String) (d : Nat) (st : WalkSt)
      (node : TreeNode),
      is_closed_in st.nodes id = true →
      lookupNode st.nodes id = some node →
      add_visible_recursive_id false e (fuel + 1) id d st =
        walk_id_list false e fuel (sort_ids st.nodes node.children) d st) ∧
    (∀ (sc : Bool) (e : List String) (fuel : Nat) (id : String) (d : Nat)
      (st : WalkSt) (node : TreeNode),
      (sc || !is_closed_in st.nodes id) = true →
      e.contains id = true →
      lookupNode (set_depth st.nodes id d) id = some node →
      add_visible_recursive_id sc e (fuel + 1) id d st =
        walk_id_list sc e fuel (sort_ids (set_depth st.nodes id d) node.children)
          (d + 1)
          { st with visible_items := st.visible_items ++ [id],
                    nodes := set_depth st.nodes id d }) ∧
    (∀ (e : List String) (fuel : Nat) (id : String) (d : Nat)
      (vis : List String) (st : WalkSt) (node : TreeNode),
      is_closed_in st.nodes id = true →
      vis.contains id = false →
      lookupNode st.nodes id = some node →
      add_visible_recursive_dep false e (fuel + 1) id d vis st =
        walk_dep_list false e fuel (sort_ids st.nodes node.dep_children) d
          (id :: vis) st) ∧
    (∀ (sc : Bool) (e : List String) (fuel : Nat) (id : String) (d : Nat)
      (vis : List String) (st : WalkSt) (node : TreeNode),
      (sc || !is_closed_in st.nodes id) = true →
      vis.contains id = false →
      st.added.contains id = false →
      e.contains id = true →
      lookupNode (set_depth st.nodes id d) id = some node →
      add_visible_recursive_dep sc e (fuel + 1) id d vis st =
        walk_dep_list sc e fuel
          (sort_ids (set_depth st.nodes id d) node.dep_children) (d + 1)
          (id :: vis)
          { st with visible_items := st.visible_items ++ [id],
                    added := id :: st.added,
                    nodes := set_depth st.nodes id d }) ∧
    ((from_issues [mk_issue "a" "A" 1 "closed", mk_issue "a.1" "A1" 1 "open"]
        [] [] [] HierarchyMode.IdBased).bind toggle_show_closed).map
      (fun t => (t.show_closed, t.visible_items,
        (lookupNode t.nodes "a.1").map TreeNode.depth)) =
      some (false, ["a.1"], some 0) := by
  refine ⟨?_, ?_, ?_, ?_, by decide⟩
  · intro e fuel id d st node hcl hlk
    rw [add_visible_recursive_id]
    simp only [hcl, hlk, Bool.not_true, Bool.false_or, Bool.or_true,
      Bool.and_true, Bool.not_false, Bool.true_and, if_false, if_true,
      Bool.or_false, Bool.false_and, Bool.and_false, Bool.false_eq_true, eq_self_iff_true]
    rfl
  · intro sc e fuel id d st node hb he hlk
    rw [add_visible_recursive_id]
    simp only [hb, he, hlk, if_true, Bool.true_or, eq_self_iff_true]
    have hd : (!sc && is_closed_in st.nodes id) = false := by
      cases hsc : sc with
      | true => rfl
      | false =>
        rw [hsc] at hb
        simp only [Bool.false_or, Bool.not_eq_true'] at hb
        simp [hb]
    simp only [hd, if_false, if_true, Bool.false_eq_true, eq_self_iff_true]
    rfl
  · intro e fuel id d vis st node hcl hvis hlk
    rw [add_visible_recursive_dep]
    simp only [hcl, hvis, hlk, Bool.not_true, Bool.false_or, Bool.or_true,
      Bool.and_true, Bool.not_false, Bool.true_and, if_false, if_true,
      Bool.false_and, Bool.and_false, Bool.false_eq_true, eq_self_iff_true]
    rfl
  · intro sc e fuel id d vis st node hb hvis ha he hlk
    rw [add_visible_recursive_dep]
    simp only [hb, hvis, ha, he, hlk, if_true, if_false, Bool.true_or,
      Bool.true_and, Bool.and_false, Bool.false_eq_true, eq_self_iff_true]
    have hd : (!sc && is_closed_in st.nodes id) = false := by
      cases hsc : sc with
      | true => rfl
      | false =>
        rw [hsc] at hb
        simp only [Bool.false_or, Bool.not_eq_true'] at hb
        simp [hb]
    simp only [hd, if_false, if_true, Bool.false_eq_true, eq_self_iff_true]
    rfl

/-- One ID-mode step at an emitted node, seen from the post-emission state:
whatever the traversal decides, the result extends that state per
`WalkShape`. -/
theorem add_id_step_emit {sc : Bool} {e : List String} {f : Nat} {x : String}
    {d : Nat} {st st' : WalkSt}
    (hb : (sc || !is_closed_in st.nodes x) = true)
    (h : add_visible_recursive_id sc e (f + 1) x d st = some st') :
    WalkShape { st with visible_items := st.visible_items ++ [x],
                        nodes := set_depth st.nodes x d } st' := by
  rw [add_visible_recursive_id] at h
  simp only [hb, eq_self_iff_true, if_true] at h
  split at h
  · split at h
    · exact (walk_id_shape f).2 _ _ _ _ _ _ h
    · simp only [Option.some.injEq] at h
      rw [← h]; exact walkShape_refl _
  · simp only [Option.some.injEq] at h
    rw [← h]; exact walkShape_refl _

/-- One dependency-mode step at an emitted node, seen from the
post-emission state. -/
theorem add_dep_step_emit {sc : Bool} {e : List String} {f : Nat} {x : String}
    {d : Nat} {vis : List String} {st st' : WalkSt}
    (hvis : vis.contains x = false)
    (hadd : st.added.contains x = false)
    (hb : (sc || !is_closed_in st.nodes x) = true)
    (h : add_visible_recursive_dep sc e (f + 1) x d vis st = some st') :
    WalkShape { st with visible_items := st.visible_items ++ [x],
                        added := x :: st.added,
                        nodes := set_depth st.nodes x d } st' := by
  rw [add_visible_recursive_dep] at h
  simp only [hvis, hadd, hb, eq_self_iff_true, if_true, if_false,
    Bool.false_eq_true, Bool.and_false, Bool.and_true] at h
  split at h
  · split at h
    · exact (walk_dep_shape f).2 _ _ _ _ _ _ _ h
    · simp only [Option.some.injEq] at h
      rw [← h]; exact walkShape_refl _
  · simp only [Option.some.injEq] at h
    rw [← h]; exact walkShape_refl _

/-- ID-mode walks whose fold states agree except possibly at `marker`
preserve `PrefRel marker`: they emit identically until `marker` is emitted,
and from that point the two visible lists share the prefix ending at
`marker`. -/
theorem walk_id_marker (marker : String) (fuel : Nat) :
    (∀ sc e₁ e₂ x d st₁ st₂,
      (∀ y, y ≠ marker → e₁.contains y = e₂.contains y) →
      PrefRel marker st₁ st₂ →
      OptPrefRel marker (add_visible_recursive_id sc e₁ fuel x d st₁)
        (add_visible_recursive_id sc e₂ fuel x d st₂)) ∧
    (∀ sc e₁ e₂ ids d st₁ st₂,
      (∀ y, y ≠ marker → e₁.contains y = e₂.contains y) →
      PrefRel marker st₁ st₂ →
      OptPrefRel marker (walk_id_list sc e₁ fuel ids d st₁)
        (walk_id_list sc e₂ fuel ids d st₂)) := by
  induction fuel with
  | zero =>
    constructor
    · intro sc e₁ e₂ x d st₁ st₂ he hrel st₁' st₂' h₁ h₂
      rw [add_visible_recursive_id] at h₁
      exact absurd h₁ (by simp)
    · intro sc e₁ e₂ ids d st₁ st₂ he hrel st₁' st₂' h₁ h₂
      cases ids with
      | nil =>
        rw [walk_id_list_nil] at h₁ h₂
        simp only [Option.some.injEq] at h₁ h₂
        rw [← h₁, ← h₂]; exact hrel
      | cons c cs =>
        rw [walk_id_list_cons, add_visible_recursive_id] at h₁
        exact absurd h₁ (by simp)
  | succ f ih =>
    have hnode : ∀ sc e₁ e₂ x d st₁ st₂,
        (∀ y, y ≠ marker → e₁.contains y = e₂.contains y) →
        PrefRel marker st₁ st₂ →
        OptPrefRel marker (add_visible_recursive_id sc e₁ (f + 1) x d st₁)
          (add_visible_recursive_id sc e₂ (f + 1) x d st₂) := by
      intro sc e₁ e₂ x d st₁ st₂ he hrel
      obtain ⟨hn, hdisj⟩ := hrel
      rcases hdisj with ⟨hv, ha, hnm, hnma⟩ | ⟨p, s₁, s₂, hv₁, hv₂, hnp⟩
      · -- the walks are still identical
        by_cases hx : x = marker
        · subst hx
          by_cases hb : (sc || !is_closed_in st₂.nodes x) = true
          · -- the marker is emitted here: both sides append it at the same
            -- index, and everything after is covered by the shape lemma
            intro st₁' st₂' h₁ h₂
            have hb₁ : (sc || !is_closed_in st₁.nodes x) = true := by
              rw [is_closed_in_congr hn]; exact hb
            have hsh₁ := add_id_step_emit hb₁ h₁
            have hsh₂ := add_id_step_emit hb h₂
            obtain ⟨hna, -, ⟨vs₁, hvs₁⟩⟩ := hsh₁
            obtain ⟨hnb, -, ⟨vs₂, hvs₂⟩⟩ := hsh₂
            refine ⟨?_, Or.inr ⟨st₁.visible_items, vs₁, vs₂, ?_, ?_, hnm⟩⟩
            · rw [hna, hnb]
              simp only
              rw [strip_set_depth, strip_set_depth, hn]
            · rw [hvs₁]; simp
            · rw [hvs₂, hv]; simp
          · -- marker hidden here: neither side emits, both auto-traverse
            have hb' : (sc || !is_closed_in st₂.nodes x) = false := by
              simpa using hb
            have hscf : sc = false := (Bool.or_eq_false_iff.mp hb').1
            have hclt : is_closed_in st₂.nodes x = true := by
              have h2 := (Bool.or_eq_false_iff.mp hb').2
              simpa using h2
            subst hscf
            rw [add_visible_recursive_id, add_visible_recursive_id]
            simp only
            rw [is_closed_in_congr hn x, hclt]
            simp only [Bool.not_true, Bool.or_false, Bool.false_or,
              Bool.not_false, Bool.true_and, Bool.or_true, Bool.and_true,
              Bool.false_eq_true, eq_self_iff_true, if_false, if_true]
            have hlk := lookup_rel_of_strip_eq hn x
            cases hla : lookupNode st₁.nodes x with
            | none =>
              cases hlb : lookupNode st₂.nodes x with
              | none =>
                intro st₁' st₂' h₁ h₂
                simp only [Option.some.injEq] at h₁ h₂
                rw [← h₁, ← h₂]
                exact ⟨hn, Or.inl ⟨hv, ha, hnm, hnma⟩⟩
              | some n₂ => rw [hla, hlb] at hlk; exact absurd hlk (by simp)
            | some n₁ =>
              cases hlb : lookupNode st₂.nodes x with
              | none => rw [hla, hlb] at hlk; exact absurd hlk (by simp)
              | some n₂ =>
                rw [hla, hlb] at hlk
                have hparts := stripNode_eq_parts (by simpa using hlk)
                dsimp only
                rw [hparts.2.1, sort_ids_congr hn n₂.children]
                exact ih.2 false e₁ e₂ _ _ st₁ st₂ he
                  ⟨hn, Or.inl ⟨hv, ha, hnm, hnma⟩⟩
        · -- a non-marker node: the two walks take the same decisions
          rw [add_visible_recursive_id, add_visible_recursive_id]
          simp only
          rw [is_closed_in_congr hn x, hv, he x hx]
          set cl := is_closed_in st₂.nodes x with hcl
          set st1a := if (sc || !cl) = true then
              { st₁ with visible_items := st₂.visible_items ++ [x],
                         nodes := set_depth st₁.nodes x d } else st₁ with hst1a
          set st1b := if (sc || !cl) = true then
              { st₂ with visible_items := st₂.visible_items ++ [x],
                         nodes := set_depth st₂.nodes x d } else st₂ with hst1b
          have hrel1 : PrefRel marker st1a st1b := by
            rw [hst1a, hst1b]
            split
            · refine ⟨by simp only; rw [strip_set_depth, strip_set_depth, hn],
                Or.inl ⟨rfl, ha, ?_, hnma⟩⟩
              simp only [List.mem_append, List.mem_singleton]
              rintro (hm | hm)
              · exact hnm (hv ▸ hm)
              · exact hx hm.symm
            · exact ⟨hn, Or.inl ⟨hv, ha, hnm, hnma⟩⟩
          have hn1 := hrel1.1
          split
          · have hlk := lookup_rel_of_strip_eq hn1 x
            cases hla : lookupNode st1a.nodes x with
            | none =>
              cases hlb : lookupNode st1b.nodes x with
              | none =>
                intro st₁' st₂' h₁ h₂
                simp only [Option.some.injEq] at h₁ h₂
                rw [← h₁, ← h₂]; exact hrel1
              | some n₂ => rw [hla, hlb] at hlk; exact absurd hlk (by simp)
            | some n₁ =>
              cases hlb : lookupNode st1b.nodes x with
              | none => rw [hla, hlb] at hlk; exact absurd hlk (by simp)
              | some n₂ =>
                rw [hla, hlb] at hlk
                have hparts := stripNode_eq_parts (by simpa using hlk)
                dsimp only
                rw [hparts.2.1, sort_ids_congr hn1 n₂.children]
                exact ih.2 sc e₁ e₂ _ _ st1a st1b he hrel1
          · intro st₁' st₂' h₁ h₂
            simp only [Option.some.injEq] at h₁ h₂
            rw [← h₁, ← h₂]; exact hrel1
      · -- the marker has already been emitted by both: independent shapes
        intro st₁' st₂' h₁ h₂
        have hsh₁ := (walk_id_shape (f + 1)).1 _ _ _ _ _ _ h₁
        have hsh₂ := (walk_id_shape (f + 1)).1 _ _ _ _ _ _ h₂
        obtain ⟨hna, -, ⟨vs₁, hvs₁⟩⟩ := hsh₁
        obtain ⟨hnb, -, ⟨vs₂, hvs₂⟩⟩ := hsh₂
        refine ⟨by rw [hna, hnb, hn], Or.inr ⟨p, s₁ ++ vs₁, s₂ ++ vs₂, ?_, ?_, hnp⟩⟩
        · rw [hvs₁, hv₁]; simp
        · rw [hvs₂, hv₂]; simp
    refine ⟨hnode, ?_⟩
    intro sc e₁ e₂ ids
    induction ids with
    | nil =>
      intro d st₁ st₂ he hrel st₁' st₂' h₁ h₂
      rw [walk_id_list_nil] at h₁ h₂
      simp only [Option.some.injEq] at h₁ h₂
      rw [← h₁, ← h₂]; exact hrel
    | cons c cs ihl =>
      intro d st₁ st₂ he hrel st₁' st₂' h₁ h₂
      rw [walk_id_list_cons] at h₁ h₂
      cases hm1 : add_visible_recursive_id sc e₁ (f + 1) c d st₁ with
      | none => rw [hm1] at h₁; exact absurd h₁ (by simp)
      | some s₁m =>
        rw [hm1] at h₁
        cases hm2 : add_visible_recursive_id sc e₂ (f + 1) c d st₂ with
        | none => rw [hm2] at h₂; exact absurd h₂ (by simp)
        | some s₂m =>
          rw [hm2] at h₂
          have hrelm := hnode sc e₁ e₂ c d st₁ st₂ he hrel s₁m s₂m hm1 hm2
          exact ihl d s₁m s₂m he hrelm st₁' st₂' h₁ h₂

/-- Dependency-mode analogue of `walk_id_marker`.  The global-once `added`
set stays equal on both sides while the walks are identical; below the
marker the two sides evolve independently, which the diverged branch of
`PrefRel` absorbs. -/
theorem walk_dep_marker (marker : String) (fuel : Nat) :
    (∀ sc e₁ e₂ x d vis st₁ st₂,
      (∀ y, y ≠ marker → e₁.contains y = e₂.contains y) →
      PrefRel marker st₁ st₂ →
      OptPrefRel marker (add_visible_recursive_dep sc e₁ fuel x d vis st₁)
        (add_visible_recursive_dep sc e₂ fuel x d vis st₂)) ∧
    (∀ sc e₁ e₂ ids d vis st₁ st₂,
      (∀ y, y ≠ marker → e₁.contains y = e₂.contains y) →
      PrefRel marker st₁ st₂ →
      OptPrefRel marker (walk_dep_list sc e₁ fuel ids d vis st₁)
        (walk_dep_list sc e₂ fuel ids d vis st₂)) := by
  induction fuel with
  | zero =>
    constructor
    · intro sc e₁ e₂ x d vis st₁ st₂ he hrel st₁' st₂' h₁ h₂
      rw [add_visible_recursive_dep] at h₁
      exact absurd h₁ (by simp)
    · intro sc e₁ e₂ ids d vis st₁ st₂ he hrel st₁' st₂' h₁ h₂
      cases ids with
      | nil =>
        rw [walk_dep_list_nil] at h₁ h₂
        simp only [Option.some.injEq] at h₁ h₂
        rw [← h₁, ← h₂]; exact hrel
      | cons c cs =>
        rw [walk_dep_list_cons, add_visible_recursive_dep] at h₁
        exact absurd h₁ (by simp)
  | succ f ih =>
    have hnode : ∀ sc e₁ e₂ x d vis st₁ st₂,
        (∀ y, y ≠ marker → e₁.contains y = e₂.contains y) →
        PrefRel marker st₁ st₂ →
        OptPrefRel marker (add_visible_recursive_dep sc e₁ (f + 1) x d vis st₁)
          (add_visible_recursive_dep sc e₂ (f + 1) x d vis st₂) := by
      intro sc e₁ e₂ x d vis st₁ st₂ he hrel
      obtain ⟨hn, hdisj⟩ := hrel
      rcases hdisj with ⟨hv, ha, hnm, hnma⟩ | ⟨p, s₁, s₂, hv₁, hv₂, hnp⟩
      · by_cases hx : x = marker
        · subst hx
          by_cases hvx : vis.contains x = true
          · -- marker is on the active path: both sides skip it entirely
            rw [add_visible_recursive_dep, add_visible_recursive_dep]
            simp only [hvx, eq_self_iff_true, if_true]
            intro st₁' st₂' h₁ h₂
            simp only [Option.some.injEq] at h₁ h₂
            rw [← h₁, ← h₂]
            exact ⟨hn, Or.inl ⟨hv, ha, hnm, hnma⟩⟩
          · have hvx' : vis.contains x = false := by simpa using hvx
            have hac₁ : st₁.added.contains x = false := by simpa using hnma
            have hac₂ : st₂.added.contains x = false := by rw [← ha]; exact hac₁
            by_cases hb : (sc || !is_closed_in st₂.nodes x) = true
            · -- the marker is emitted here by both sides
              intro st₁' st₂' h₁ h₂
              have hb₁ : (sc || !is_closed_in st₁.nodes x) = true := by
                rw [is_closed_in_congr hn]; exact hb
              have hsh₁ := add_dep_step_emit hvx' hac₁ hb₁ h₁
              have hsh₂ := add_dep_step_emit hvx' hac₂ hb h₂
              obtain ⟨hna, -, ⟨vs₁, hvs₁⟩⟩ := hsh₁
              obtain ⟨hnb, -, ⟨vs₂, hvs₂⟩⟩ := hsh₂
              refine ⟨?_, Or.inr ⟨st₁.visible_items, vs₁, vs₂, ?_, ?_, hnm⟩⟩
              · rw [hna, hnb]
                simp only
                rw [strip_set_depth, strip_set_depth, hn]
              · rw [hvs₁]; simp
              · rw [hvs₂, hv]; simp
            · -- marker hidden here: neither side emits, both auto-traverse
              have hb' : (sc || !is_closed_in st₂.nodes x) = false := by
                simpa using hb
              have hscf : sc = false := (Bool.or_eq_false_iff.mp hb').1
              have hclt : is_closed_in st₂.nodes x = true := by
                have h2 := (Bool.or_eq_false_iff.mp hb').2
                simpa using h2
              subst hscf
              rw [add_visible_recursive_dep, add_visible_recursive_dep]
              simp only
              rw [is_closed_in_congr hn x, hclt, hvx', ha]
              simp only [Bool.not_true, Bool.or_false, Bool.false_or,
                Bool.not_false, Bool.true_and, Bool.or_true, Bool.and_true,
                Bool.false_and, hac₂, Bool.and_false, Bool.false_eq_true,
                eq_self_iff_true, if_false, if_true]
              have hlk := lookup_rel_of_strip_eq hn x
              cases hla : lookupNode st₁.nodes x with
              | none =>
                cases hlb : lookupNode st₂.nodes x with
                | none =>
                  intro st₁' st₂' h₁ h₂
                  simp only [Option.some.injEq] at h₁ h₂
                  rw [← h₁, ← h₂]
                  exact ⟨hn, Or.inl ⟨hv, ha, hnm, hnma⟩⟩
                | some n₂ => rw [hla, hlb] at hlk; exact absurd hlk (by simp)
              | some n₁ =>
                cases hlb : lookupNode st₂.nodes x with
                | none => rw [hla, hlb] at hlk; exact absurd hlk (by simp)
                | some n₂ =>
                  rw [hla, hlb] at hlk
                  have hparts := stripNode_eq_parts (by simpa using hlk)
                  dsimp only
                  rw [hparts.2.2, sort_ids_congr hn n₂.dep_children]
                  exact ih.2 false e₁ e₂ _ _ _ st₁ st₂ he
                    ⟨hn, Or.inl ⟨hv, ha, hnm, hnma⟩⟩
        · -- a non-marker node: both sides take the same decisions
          rw [add_visible_recursive_dep, add_visible_recursive_dep]
          simp only
          rw [is_closed_in_congr hn x, hv, ha, he x hx]
          split
          · intro st₁' st₂' h₁ h₂
            simp only [Option.some.injEq] at h₁ h₂
            rw [← h₁, ← h₂]
            exact ⟨hn, Or.inl ⟨hv, ha, hnm, hnma⟩⟩
          · set cl := is_closed_in st₂.nodes x with hcl
            split
            · intro st₁' st₂' h₁ h₂
              simp only [Option.some.injEq] at h₁ h₂
              rw [← h₁, ← h₂]
              exact ⟨hn, Or.inl ⟨hv, ha, hnm, hnma⟩⟩
            · set st1a := if (sc || !cl) = true then
                  { st₁ with visible_items := st₂.visible_items ++ [x],
                             added := x :: st₂.added,
                             nodes := set_depth st₁.nodes x d } else st₁ with hst1a
              set st1b := if (sc || !cl) = true then
                  { st₂ with visible_items := st₂.visible_items ++ [x],
                             added := x :: st₂.added,
                             nodes := set_depth st₂.nodes x d } else st₂ with hst1b
              have hrel1 : PrefRel marker st1a st1b := by
                rw [hst1a, hst1b]
                split
                · refine ⟨by simp only; rw [strip_set_depth, strip_set_depth, hn],
                    Or.inl ⟨rfl, rfl, ?_, ?_⟩⟩
                  · simp only [List.mem_append, List.mem_singleton]
                    rintro (hm | hm)
                    · exact hnm (hv ▸ hm)
                    · exact hx hm.symm
                  · simp only [List.mem_cons]
                    rintro (hm | hm)
                    · exact hx hm.symm
                    · exact hnma (ha ▸ hm)
                · exact ⟨hn, Or.inl ⟨hv, ha, hnm, hnma⟩⟩
              have hn1 := hrel1.1
              split
              · have hlk := lookup_rel_of_strip_eq hn1 x
                cases hla : lookupNode st1a.nodes x with
                | none =>
                  cases hlb : lookupNode st1b.nodes x with
                  | none =>
                    intro st₁' st₂' h₁ h₂
                    simp only [Option.some.injEq] at h₁ h₂
                    rw [← h₁, ← h₂]; exact hrel1
                  | some n₂ => rw [hla, hlb] at hlk; exact absurd hlk (by simp)
                | some n₁ =>
                  cases hlb : lookupNode st1b.nodes x with
                  | none => rw [hla, hlb] at hlk; exact absurd hlk (by simp)
                  | some n₂ =>
                    rw [hla, hlb] at hlk
                    have hparts := stripNode_eq_parts (by simpa using hlk)
                    dsimp only
                    rw [hparts.2.2, sort_ids_congr hn1 n₂.dep_children]
                    exact ih.2 sc e₁ e₂ _ _ _ st1a st1b he hrel1
              · intro st₁' st₂' h₁ h₂
                simp only [Option.some.injEq] at h₁ h₂
                rw [← h₁, ← h₂]; exact hrel1
      · -- marker already emitted by both sides: independent shapes
        intro st₁' st₂' h₁ h₂
        have hsh₁ := (walk_dep_shape (f + 1)).1 _ _ _ _ _ _ _ h₁
        have hsh₂ := (walk_dep_shape (f + 1)).1 _ _ _ _ _ _ _ h₂
        obtain ⟨hna, -, ⟨vs₁, hvs₁⟩⟩ := hsh₁
        obtain ⟨hnb, -, ⟨vs₂, hvs₂⟩⟩ := hsh₂
        refine ⟨by rw [hna, hnb, hn], Or.inr ⟨p, s₁ ++ vs₁, s₂ ++ vs₂, ?_, ?_, hnp⟩⟩
        · rw [hvs₁, hv₁]; simp
        · rw [hvs₂, hv₂]; simp
    refine ⟨hnode, ?_⟩
    intro sc e₁ e₂ ids
    induction ids with
    | nil =>
      intro d vis st₁ st₂ he hrel st₁' st₂' h₁ h₂
      rw [walk_dep_list_nil] at h₁ h₂
      simp only [Option.some.injEq] at h₁ h₂
      rw [← h₁, ← h₂]; exact hrel
    | cons c cs ihl =>
      intro d vis st₁ st₂ he hrel st₁' st₂' h₁ h₂
      rw [walk_dep_list_cons] at h₁ h₂
      cases hm1 : add_visible_recursive_dep sc e₁ (f + 1) c d vis st₁ with
      | none => rw [hm1] at h₁; exact absurd h₁ (by simp)
      | some s₁m =>
        rw [hm1] at h₁
        cases hm2 : add_visible_recursive_dep sc e₂ (f + 1) c d vis st₂ with
        | none => rw [hm2] at h₂; exact absurd h₂ (by simp)
        | some s₂m =>
          rw [hm2] at h₂
          have hrelm := hnode sc e₁ e₂ c d vis st₁ st₂ he hrel s₁m s₂m hm1 hm2
          exact ihl d vis s₁m s₂m he hrelm st₁' st₂' h₁ h₂

/-- Removing an id just pushed onto a set it was not in restores the set. -/
theorem eraseSet_cons_self {s : List String} {id : String}
    (h : s.contains id = false) : eraseSet (id :: s) id = s := by
  have hid : id ∉ s := by simpa using h
  unfold eraseSet
  rw [List.filter_cons_of_neg (by simp)]
  apply List.filter_eq_self.mpr
  intro a ha
  simp only [Bool.not_eq_true', beq_eq_false_iff_ne, ne_eq]
  intro hax
  exact hid (hax ▸ ha)

/-- The fallback branch of `collapse` never changes the visible list, the
fold state or the node map. -/
theorem collapse_fallback_visible {t : IssueTree} {id : String}
    (hsel : selected_id t = some id)
    (hnexp : (current_expanded t).contains id = false) :
    ∃ t', collapse t = some t' ∧ t'.visible_items = t.visible_items ∧
      t'.expanded = t.expanded ∧ t'.dep_expanded = t.dep_expanded ∧
      t'.nodes = t.nodes := by
  refine ⟨_, collapse_fallback_eq hsel hnexp, ?_⟩
  split
  · split
    · exact ⟨rfl, rfl, rfl, rfl⟩
    · exact ⟨rfl, rfl, rfl, rfl⟩
  · exact ⟨rfl, rfl, rfl, rfl⟩

/-- C7 (amended): when the selected node is *not* currently expanded in the
active mode, `expand` followed by `collapse`, with no other mutation in
between, returns the visible list to exactly its pre-expand content and
ordering, in both hierarchy modes.  When the node is already expanded the
round trip fails — `expand` is a no-op and `collapse` folds the node (see
the counterexample). -/
theorem c7_expand_collapse_roundtrip (t : IssueTree) (id : String)
    (hwf : t.hierarchy_mode = HierarchyMode.IdBased → TreeWF t)
    (hsync : InSync t)
    (hsel : selected_id t = some id)
    (hnexp : (current_expanded t).contains id = false) :
    ∃ t₁ t₂, expand t = some t₁ ∧ collapse t₁ = some t₂ ∧
      t₂.visible_items = t.visible_items := by
  have hnodup : t.visible_items.Nodup := by
    have hsync2 := hsync
    unfold InSync at hsync2
    cases hrv : rebuild_visible t with
    | none => rw [hrv] at hsync2; exact absurd hsync2 (by simp)
    | some tr =>
      rw [hrv] at hsync2
      simp only [Option.map_some', Option.some.injEq] at hsync2
      rw [← hsync2]
      exact rebuild_visible_nodup hrv hwf
  have hmem : id ∈ t.visible_items := by
    have hget : t.visible_items.get? t.cursor = some id := hsel
    exact List.get?_mem hget
  by_cases hch : has_children_in_current_mode t id = true
  · have hexp : expand t =
        rebuild_visible (set_current_expanded t (id :: current_expanded t)) := by
      unfold expand
      rw [hsel]
      simp only [hch, hnexp, Bool.not_false, if_true, eq_self_iff_true]
    cases hm : t.hierarchy_mode with
    | IdBased =>
      have hwft := hwf hm
      have hce : current_expanded t = t.expanded := by
        unfold current_expanded; rw [hm]
      have hnexp2 : t.expanded.contains id = false := by rw [← hce]; exact hnexp
      have hu : set_current_expanded t (id :: current_expanded t) =
          { t with expanded := id :: t.expanded } := by
        unfold set_current_expanded
        rw [hm, hce]
      rw [hu] at hexp
      have hsync2 := hsync
      unfold InSync at hsync2
      rw [rebuild_visible_eq] at hsync2
      cases hwt : rebuild_walk t with
      | none => rw [hwt] at hsync2; exact absurd hsync2 (by simp)
      | some st =>
      rw [hwt] at hsync2
      simp only [Option.map_some', Option.some.injEq] at hsync2
      have hws : (rebuild_walk { t with expanded := id :: t.expanded }).isSome :=
        rebuild_walk_isSome (fun _ => hwft.1)
      rcases Option.isSome_iff_exists.mp hws with ⟨st₁, hwu⟩
      have hwt1 : walk_id_list t.show_closed t.expanded (t.nodes.length + 1)
          t.root_ids 0 { nodes := t.nodes, visible_items := [], added := [] } =
          some st := by
        have h0 := hwt
        unfold rebuild_walk at h0
        rw [hm] at h0
        exact h0
      have hwu1 : walk_id_list t.show_closed (id :: t.expanded)
          (t.nodes.length + 1) t.root_ids 0
          { nodes := t.nodes, visible_items := [], added := [] } =
          some st₁ := by
        have h0 := hwu
        unfold rebuild_walk at h0
        simp only at h0
        rw [hm] at h0
        exact h0
      have hpre : PrefRel id st st₁ :=
        (walk_id_marker id (t.nodes.length + 1)).2 t.show_closed t.expanded
          (id :: t.expanded) t.root_ids 0 _ _
          (fun y hy => by simp [List.contains_cons, hy])
          ⟨rfl, Or.inl ⟨rfl, rfl, by simp, by simp⟩⟩ st st₁ hwt1 hwu1
      have hstrip1 : strip_depths st₁.nodes = strip_depths t.nodes :=
        ((walk_id_shape (t.nodes.length + 1)).2 _ _ _ _ _ _ hwu1).1
      rcases hpre.2 with ⟨hveq, -, hnm, -⟩ | ⟨p, s₁, s₂, hv₁, hv₂, hnp⟩
      · exact absurd (by rw [hsync2]; exact hmem) hnm
      · have hsplit : t.visible_items = p ++ id :: s₁ := by rw [← hsync2, hv₁]
        have hget : t.visible_items.get? t.cursor = some id := hsel
        have hcur : t.cursor = p.length := index_of_unique hnodup hsplit hget
        have hlen2 : st₁.visible_items.length = p.length + s₂.length + 1 := by
          rw [hv₂]; simp [List.length_append]; omega
        have hnoclamp : (st₁.visible_items.length ≤ t.cursor &&
            !st₁.visible_items.isEmpty) = false := by
          have hlt : ¬ (st₁.visible_items.length ≤ t.cursor) := by
            rw [hcur, hlen2]; omega
          simp [hlt]
        rcases Option.isSome_iff_exists.mp
          (rebuild_visible_isSome (t := { t with expanded := id :: t.expanded })
            (fun _ => hwft.1)) with ⟨t₁, h₁⟩
        have h₁r := h₁
        rw [rebuild_visible_eq, hwu] at h₁r
        simp only [Option.map_some', Option.some.injEq] at h₁r
        have ht₁v : t₁.visible_items = st₁.visible_items := by rw [← h₁r]
        have ht₁c : t₁.cursor = t.cursor := by
          rw [← h₁r]
          simp only
          rw [hnoclamp]
          simp
        have ht₁e : t₁.expanded = id :: t.expanded := by rw [← h₁r]
        have ht₁de : t₁.dep_expanded = t.dep_expanded := by rw [← h₁r]
        have ht₁n : t₁.nodes = st₁.nodes := by rw [← h₁r]
        have ht₁m : t₁.hierarchy_mode = t.hierarchy_mode := by rw [← h₁r]
        have ht₁r2 : t₁.root_ids = t.root_ids := by rw [← h₁r]
        have ht₁dr : t₁.dep_root_ids = t.dep_root_ids := by rw [← h₁r]
        have ht₁sc : t₁.show_closed = t.show_closed := by rw [← h₁r]
        have hsel₁ : selected_id t₁ = some id := by
          show t₁.visible_items.get? t₁.cursor = some id
          rw [ht₁v, ht₁c, hcur, hv₂]
          exact get?_append_length p id s₂
        have hce₁ : current_expanded t₁ = id :: t.expanded := by
          unfold current_expanded
          rw [ht₁m, hm]
          exact ht₁e
        have hcol : collapse t₁ =
            rebuild_visible (set_current_expanded t₁ t.expanded) := by
          unfold collapse
          rw [hsel₁]
          simp only [hce₁]
          rw [if_pos (by simp), eraseSet_cons_self hnexp2]
        have hw : set_current_expanded t₁ t.expanded =
            { t₁ with expanded := t.expanded } := by
          unfold set_current_expanded
          rw [ht₁m, hm]
        rw [hw] at hcol
        have hwfw : ({ t₁ with expanded := t.expanded } : IssueTree).hierarchy_mode =
            HierarchyMode.IdBased →
            IdWF ({ t₁ with expanded := t.expanded } : IssueTree).nodes := by
          intro hmm
          show IdWF t₁.nodes
          rw [ht₁n]
          exact IdWF_of_strip_eq hstrip1.symm hwft.1
        rcases Option.isSome_iff_exists.mp (rebuild_visible_isSome hwfw)
          with ⟨t₂, h₂⟩
        have hrel : OptStRel (rebuild_walk { t₁ with expanded := t.expanded })
            (rebuild_walk t) := by
          apply rebuild_walk_congr
          · show strip_depths t₁.nodes = strip_depths t.nodes
            rw [ht₁n]; exact hstrip1
          · exact ht₁r2
          · exact ht₁dr
          · exact ht₁sc
          · exact ht₁m
          · intro y; rfl
          · intro y
            show t₁.dep_expanded.contains y = t.dep_expanded.contains y
            rw [ht₁de]
        have h₂r := h₂
        rw [rebuild_visible_eq] at h₂r
        cases hww : rebuild_walk { t₁ with expanded := t.expanded } with
        | none => rw [hww] at h₂r; exact absurd h₂r (by simp)
        | some st₂ =>
        rw [hww] at h₂r
        simp only [Option.map_some', Option.some.injEq] at h₂r
        rw [hwt, hww] at hrel
        refine ⟨t₁, t₂, hexp.trans h₁, hcol.trans h₂, ?_⟩
        have hv2 : t₂.visible_items = st₂.visible_items := by rw [← h₂r]
        rw [hv2, hrel.2.1, hsync2]
    | DependencyBased =>
      have hce : current_expanded t = t.dep_expanded := by
        unfold current_expanded; rw [hm]
      have hnexp2 : t.dep_expanded.contains id = false := by
        rw [← hce]; exact hnexp
      have hu : set_current_expanded t (id :: current_expanded t) =
          { t with dep_expanded := id :: t.dep_expanded } := by
        unfold set_current_expanded
        rw [hm, hce]
      rw [hu] at hexp
      have hsync2 := hsync
      unfold InSync at hsync2
      rw [rebuild_visible_eq] at hsync2
      cases hwt : rebuild_walk t with
      | none => rw [hwt] at hsync2; exact absurd hsync2 (by simp)
      | some st =>
      rw [hwt] at hsync2
      simp only [Option.map_some', Option.some.injEq] at hsync2
      have hvac : ∀ u : IssueTree, u.hierarchy_mode = t.hierarchy_mode →
          u.hierarchy_mode = HierarchyMode.IdBased → IdWF u.nodes := by
        intro u hum hmm
        rw [hum, hm] at hmm
        exact absurd hmm (by simp)
      have hws : (rebuild_walk { t with dep_expanded := id :: t.dep_expanded }).isSome :=
        rebuild_walk_isSome (hvac _ rfl)
      rcases Option.isSome_iff_exists.mp hws with ⟨st₁, hwu⟩
      have hwt1 : walk_dep_list t.show_closed t.dep_expanded (t.nodes.length + 1)
          t.dep_root_ids 0 []
          { nodes := t.nodes, visible_items := [], added := [] } =
          some st := by
        have h0 := hwt
        unfold rebuild_walk at h0
        rw [hm] at h0
        exact h0
      have hwu1 : walk_dep_list t.show_closed (id :: t.dep_expanded)
          (t.nodes.length + 1) t.dep_root_ids 0 []
          { nodes := t.nodes, visible_items := [], added := [] } =
          some st₁ := by
        have h0 := hwu
        unfold rebuild_walk at h0
        simp only at h0
        rw [hm] at h0
        exact h0
      have hpre : PrefRel id st st₁ :=
        (walk_dep_marker id (t.nodes.length + 1)).2 t.show_closed t.dep_expanded
          (id :: t.dep_expanded) t.dep_root_ids 0 [] _ _
          (fun y hy => by simp [List.contains_cons, hy])
          ⟨rfl, Or.inl ⟨rfl, rfl, by simp, by simp⟩⟩ st st₁ hwt1 hwu1
      have hstrip1 : strip_depths st₁.nodes = strip_depths t.nodes :=
        ((walk_dep_shape (t.nodes.length + 1)).2 _ _ _ _ _ _ _ hwu1).1
      rcases hpre.2 with ⟨hveq, -, hnm, -⟩ | ⟨p, s₁, s₂, hv₁, hv₂, hnp⟩
      · exact absurd (by rw [hsync2]; exact hmem) hnm
      · have hsplit : t.visible_items = p ++ id :: s₁ := by rw [← hsync2, hv₁]
        have hget : t.visible_items.get? t.cursor = some id := hsel
        have hcur : t.cursor = p.length := index_of_unique hnodup hsplit hget
        have hlen2 : st₁.visible_items.length = p.length + s₂.length + 1 := by
          rw [hv₂]; simp [List.length_append]; omega
        have hnoclamp : (st₁.visible_items.length ≤ t.cursor &&
            !st₁.visible_items.isEmpty) = false := by
          have hlt : ¬ (st₁.visible_items.length ≤ t.cursor) := by
            rw [hcur, hlen2]; omega
          simp [hlt]
        rcases Option.isSome_iff_exists.mp
          (rebuild_visible_isSome
            (t := { t with dep_expanded := id :: t.dep_expanded })
            (hvac _ rfl)) with ⟨t₁, h₁⟩
        have h₁r := h₁
        rw [rebuild_visible_eq, hwu] at h₁r
        simp only [Option.map_some', Option.some.injEq] at h₁r
        have ht₁v : t₁.visible_items = st₁.visible_items := by rw [← h₁r]
        have ht₁c : t₁.cursor = t.cursor := by
          rw [← h₁r]
          simp only
          rw [hnoclamp]
          simp
        have ht₁e : t₁.expanded = t.expanded := by rw [← h₁r]
        have ht₁de : t₁.dep_expanded = id :: t.dep_expanded := by rw [← h₁r]
        have ht₁n : t₁.nodes = st₁.nodes := by rw [← h₁r]
        have ht₁m : t₁.hierarchy_mode = t.hierarchy_mode := by rw [← h₁r]
        have ht₁r2 : t₁.root_ids = t.root_ids := by rw [← h₁r]
        have ht₁dr : t₁.dep_root_ids = t.dep_root_ids := by rw [← h₁r]
        have ht₁sc : t₁.show_closed = t.show_closed := by rw [← h₁r]
        have hsel₁ : selected_id t₁ = some id := by
          show t₁.visible_items.get? t₁.cursor = some id
          rw [ht₁v, ht₁c, hcur, hv₂]
          exact get?_append_length p id s₂
        have hce₁ : current_expanded t₁ = id :: t.dep_expanded := by
          unfold current_expanded
          rw [ht₁m, hm]
          exact ht₁de
        have hcol : collapse t₁ =
            rebuild_visible (set_current_expanded t₁ t.dep_expanded) := by
          unfold collapse
          rw [hsel₁]
          simp only [hce₁]
          rw [if_pos (by simp), eraseSet_cons_self hnexp2]
        have hw : set_current_expanded t₁ t.dep_expanded =
            { t₁ with dep_expanded := t.dep_expanded } := by
          unfold set_current_expanded
          rw [ht₁m, hm]
        rw [hw] at hcol
        rcases Option.isSome_iff_exists.mp
          (rebuild_visible_isSome (t := { t₁ with dep_expanded := t.dep_expanded })
            (hvac _ ht₁m)) with ⟨t₂, h₂⟩
        have hrel : OptStRel (rebuild_walk { t₁ with dep_expanded := t.dep_expanded })
            (rebuild_walk t) := by
          apply rebuild_walk_congr
          · show strip_depths t₁.nodes = strip_depths t.nodes
            rw [ht₁n]; exact hstrip1
          · exact ht₁r2
          · exact ht₁dr
          · exact ht₁sc
          · exact ht₁m
          · intro y
            show t₁.expanded.contains y = t.expanded.contains y
            rw [ht₁e]
          · intro y; rfl
        have h₂r := h₂
        rw [rebuild_visible_eq] at h₂r
        cases hww : rebuild_walk { t₁ with dep_expanded := t.dep_expanded } with
        | none => rw [hww] at h₂r; exact absurd h₂r (by simp)
        | some st₂ =>
        rw [hww] at h₂r
        simp only [Option.map_some', Option.some.injEq] at h₂r
        rw [hwt, hww] at hrel
        refine ⟨t₁, t₂, hexp.trans h₁, hcol.trans h₂, ?_⟩
        have hv2 : t₂.visible_items = st₂.visible_items := by rw [← h₂r]
        rw [hv2, hrel.2.1, hsync2]
  · have hch2 : has_children_in_current_mode t id = false := by simpa using hch
    have hexp : expand t = some t := by
      unfold expand
      rw [hsel]
      simp only [hch2, Bool.false_eq_true, if_false]
    obtain ⟨t₂, hc, hv, -, -, -⟩ := collapse_fallback_visible hsel hnexp
    exact ⟨t, t₂, hexp, hc, hv⟩

theorem c7_expand_collapse_roundtrip_witness :
    (match from_issues [mk_issue "a" "A" 1 "open", mk_issue "a.1" "A1" 1 "open"]
        [] [] [] HierarchyMode.IdBased with
     | some t => ∃ t₁ t₂, expand t = some t₁ ∧ collapse t₁ = some t₂ ∧
         t₂.visible_items = t.visible_items
     | none => False) := by
  cases hfi : from_issues [mk_issue "a" "A" 1 "open", mk_issue "a.1" "A1" 1 "open"]
      [] [] [] HierarchyMode.IdBased with
  | none => exact absurd hfi (by decide)
  | some t =>
    have hsel : selected_id t = some "a" := by
      have h : (from_issues [mk_issue "a" "A" 1 "open", mk_issue "a.1" "A1" 1 "open"]
          [] [] [] HierarchyMode.IdBased).map selected_id = some (some "a") := by
        decide
      rw [hfi] at h
      simpa using h
    have hnexp : (current_expanded t).contains "a" = false := by
      have h : (from_issues [mk_issue "a" "A" 1 "open", mk_issue "a.1" "A1" 1 "open"]
          [] [] [] HierarchyMode.IdBased).map
          (fun u => (current_expanded u).contains "a") = some false := by decide
      rw [hfi] at h
      simpa using h
    exact c7_expand_collapse_roundtrip t "a"
      (fun _ => rebuild_preserves_TreeWF hfi (initial_tree_TreeWF (by decide) _ _ _ _))
      (rebuild_insync hfi (fun _ => idWF_populatedNodes _)) hsel hnexp

/-- C7, counterexample: on an *already expanded* selected node the round
trip fails — `expand` is a no-op there, and `collapse` then folds the node,
shrinking the visible list from `["a", "a.1"]` to `["a"]`. -/
theorem c7_counterexample :
    ((from_issues [mk_issue "a" "A" 1 "open", mk_issue "a.1" "A1" 1 "open"]
        ["a"] [] [] HierarchyMode.IdBased).map (fun t =>
      (selected_id t, t.visible_items,
        ((expand t).bind collapse).map (fun u => u.visible_items)))) =
    some (some "a", ["a", "a.1"], some ["a"]) := by decide

end Bsv

